import Mathlib

/-!
Shallow embedding of the focus-navigation resolution algorithm of the
`ui-navigation` crate (`src/resolve.rs`, `src/events.rs`), together with
theorems checking the natural-language specification against it.

Entities are modelled as natural numbers, 2d positions as pairs of
integers (the source uses `f32` screen coordinates; all the properties
checked here are order-theoretic, so exact integer arithmetic is the
faithful shallow embedding).  Loops over the entity graph are modelled
with explicit fuel; running out of fuel is recorded by a dedicated
`Res.diverge` outcome, and the Rust `assert!`/panic paths by `Res.panic`.
-/

/- Entities are natural-number ids. -/

/-- `FocusState` from `resolve.rs`. -/
inductive FocusState where
  | Prioritized
  | Focused
  | Active
  | Blocked
  | Inert
deriving DecidableEq, Repr

/-- `FocusAction` from `resolve.rs`. -/
inductive FocusAction where
  | Normal
  | Cancel
  | Lock
deriving DecidableEq, Repr

/-- `Focusable` component from `resolve.rs`: a state and an action. -/
structure Focusable where
  state : FocusState
  action : FocusAction
deriving DecidableEq, Repr

/-- Modelled from the spec: `MenuSetting` lives in `crate::menu`, which is
not part of the sources given (only `resolve.rs` uses it, through
`is_2d`, `is_scope` and `bound`).  The spec describes it as
`{axis: TwoD | Scope, wrap: bool}`. -/
structure MenuSetting where
  scope : Bool
  wrapping : Bool
deriving DecidableEq, Repr

/-- Modelled from the spec: a menu resolves `ScopeMove` iff its axis is `Scope`. -/
def MenuSetting.is_scope (s : MenuSetting) : Bool := s.scope

/-- Modelled from the spec: a menu resolves `Move` iff it is not a scope menu. -/
def MenuSetting.is_2d (s : MenuSetting) : Bool := !s.scope

/-- Modelled from the spec: a menu is bounded iff it does not wrap;
`resolve.rs` computes `cycles` as `!setting.bound()`. -/
def MenuSetting.bound (s : MenuSetting) : Bool := !s.wrapping

/-- `TreeMenu` component from `resolve.rs`. -/
structure TreeMenu where
  focus_parent : Option Nat
  active_child : Nat
deriving DecidableEq, Repr

/-- `Direction` from `events.rs`. -/
inductive Direction where
  | South
  | North
  | East
  | West
deriving DecidableEq, Repr

/-- `ScopeDirection` from `events.rs`. -/
inductive ScopeDirection where
  | Next
  | Previous
deriving DecidableEq, Repr

/-- `NavRequest` from `events.rs` (the variant set used by `resolve.rs`:
`Lock`/`Unlock` rather than the older `Free`). -/
inductive NavRequest where
  | Move (d : Direction)
  | ScopeMove (d : ScopeDirection)
  | Action
  | Cancel
  | FocusOn (e : Nat)
  | Lock
  | Unlock
deriving DecidableEq, Repr

/-- `LockReason` from `resolve.rs`. -/
inductive LockReason where
  | Focusable (e : Nat)
  | NavRequest
deriving DecidableEq, Repr

/-- `NavEvent` from `events.rs` as used by `resolve.rs`.  The `NonEmpty`
breadcrumbs are modelled as plain lists; the resolution algorithm only
ever constructs non-empty ones. -/
inductive NavEvent where
  | FocusChanged : List Nat → List Nat → NavEvent
  | NoChanges (frm : List Nat) (request : NavRequest)
  | Locked (reason : LockReason)
  | Unlocked (reason : LockReason)
deriving DecidableEq, Repr

/-- Outcome of running a Rust function that may panic or (on a
mis-declared graph) fail to terminate: `ok` is a normal return, `panic`
an `assert!`/`expect` failure, `diverge` marks fuel exhaustion of the
embedding (the Rust code would loop forever). -/
inductive Res (α : Type) where
  | ok (val : α)
  | panic (msg : String)
  | diverge
deriving DecidableEq, Repr

/-- `Direction::is_in` from `events.rs`: the strict 90-degree cone test
on the offset `other - reference`. -/
def Direction.is_in (d : Direction) (reference other : Int × Int) : Bool :=
  let cx := other.1 - reference.1
  let cy := other.2 - reference.2
  match d with
  | .South => decide (cy < cx) && decide (cy < -cx)
  | .North => decide (cy > cx) && decide (cy > -cx)
  | .East => decide (cy < cx) && decide (cy > -cx)
  | .West => decide (cy > cx) && decide (cy < -cx)

/-- The loop body of `trim_common_tail`, expressed on the reversed
breadcrumbs: walking from the tails of both vectors, on the first
mismatch return the still-untrimmed remainders (`v.truncate(i + 1)` keeps
exactly the reverse of the current suffix); if an end is reached while
elements still match, the original vectors are kept (`None`). -/
def trimRevAux : List Nat → List Nat → Option (List Nat × List Nat)
  | x :: xs, y :: ys =>
    if x ≠ y then some (x :: xs, y :: ys)
    else if xs.isEmpty || ys.isEmpty then none
    else trimRevAux xs ys
  | _, _ => none

/-- `trim_common_tail` from `resolve.rs`: remove all mutually identical
elements at the end of `v1` and `v2`. -/
def trim_common_tail (v1 v2 : List Nat) : List Nat × List Nat :=
  match trimRevAux v1.reverse v2.reverse with
  | some p => (p.1.reverse, p.2.reverse)
  | none => (v1, v2)

/-- `resolve_index` from `resolve.rs`: index arithmetic for scope menus. -/
def resolve_index (from0 : Nat) (cycles : Bool) (direction : ScopeDirection)
    (max_value : Nat) : Option Nat :=
  match direction, from0 with
  | .Previous, 0 => if cycles then some max_value else none
  | .Previous, n + 1 => some n
  | .Next, n => if n = max_value then (if cycles then some 0 else none) else some (n + 1)

/-- `resolve_scope` from `resolve.rs`: next/previous entity in a scope
menu sibling list. -/
def resolve_scope (focused : Nat) (direction : ScopeDirection) (cycles : Bool)
    (siblings : List Nat) : Option Nat :=
  match siblings.findIdx? (fun e => e == focused) with
  | none => none
  | some i => (resolve_index i cycles direction (siblings.length - 1)).bind
      (fun j => siblings.get? j)

/-- Rust `Iterator::max_by_key` over a list of entities with an integer
key: the maximum, returning the last of several equal maxima. -/
def maxByKey (key : Nat → Int) : List Nat → Option Nat
  | [] => none
  | x :: xs =>
    match maxByKey key xs with
    | none => some x
    | some y => if key y < key x then some x else some y

/-- `Rect` from `resolve.rs` (screen-boundary rectangle). -/
structure Rect where
  max : Int × Int
  min : Int × Int
deriving DecidableEq, Repr

/-- `ScreenBoundaries` resource from `resolve.rs`. -/
structure ScreenBoundaries where
  position : Int × Int
  screen_edge : Rect
  scale : Int
deriving DecidableEq, Repr

/-- `UiProjectionQuery` from `resolve.rs`: the optional boundary resource
and the `GlobalTransform` positions (modelled as a total position map). -/
structure UiProjection where
  boundaries : Option ScreenBoundaries
  pos : Nat → Int × Int

/-- Squared euclidean distance (`Vec2::distance_squared`). -/
def dist2 (a b : Int × Int) : Int :=
  (b.1 - a.1) * (b.1 - a.1) + (b.2 - a.2) * (b.2 - a.2)

/-- The virtual search origin of the wraparound branch of `resolve_2d`:
the focused position projected onto the opposite screen edge
(up/down axes inverted, as in bevy). -/
def wrapOrigin (direction : Direction) (b : ScreenBoundaries)
    (focused_pos : Int × Int) : Int × Int :=
  match direction with
  | .South => (focused_pos.1, b.position.2 - b.scale * b.screen_edge.min.2)
  | .North => (focused_pos.1, b.position.2 + b.scale * b.screen_edge.max.2)
  | .East => (b.position.1 - b.screen_edge.min.1 * b.scale, focused_pos.2)
  | .West => (b.position.1 + b.screen_edge.max.1 * b.scale, focused_pos.2)

/-- `UiProjectionQuery::resolve_2d` from `resolve.rs`: the default 2d
menu-navigation strategy, including the screen-boundary wraparound
branch. -/
def resolve_2d (q : UiProjection) (focused : Nat) (direction : Direction)
    (cycles : Bool) (siblings : List Nat) : Option Nat :=
  let focused_pos := q.pos focused
  let candidates := siblings.filter
    (fun s => direction.is_in focused_pos (q.pos s) && s != focused)
  let closest := maxByKey (fun s => -(dist2 focused_pos (q.pos s))) candidates
  match closest, q.boundaries with
  | none, none => none
  | none, some b =>
    if cycles then
      let fp := wrapOrigin direction b focused_pos
      maxByKey (fun s => -(dist2 fp (q.pos s))) siblings
    else none
  | some c, _ => some c

/-- The navigation graph as seen by `NavQueries`/`MutQueries`: the
`Focusable` store (entities `Without<TreeMenu>`), the menu store
(entities with `TreeMenu` and `MenuSetting`, `Without<Focusable>`), and
the bevy parent/children hierarchy, all as finite association lists. -/
structure World where
  focusables : List (Nat × Focusable)
  menus : List (Nat × TreeMenu × MenuSetting)
  parents : List (Nat × Nat)
  children : List (Nat × List Nat)
deriving Repr

/-- `Query<&Focusable>::get`. -/
def lookupF (l : List (Nat × Focusable)) (e : Nat) : Option Focusable :=
  (l.find? (fun p => p.1 == e)).map (fun p => p.2)

/-- Menu query `get`: the `TreeMenu` and `MenuSetting` of an entity. -/
def lookupMenu (w : World) (e : Nat) : Option (TreeMenu × MenuSetting) :=
  (w.menus.find? (fun t => t.1 == e)).map (fun t => t.2)

/-- `Query<&Parent>::get`. -/
def lookupParent (w : World) (e : Nat) : Option Nat :=
  (w.parents.find? (fun p => p.1 == e)).map (fun p => p.2)

/-- `Query<&Children>::get`. -/
def lookupChildren (w : World) (e : Nat) : Option (List Nat) :=
  (w.children.find? (fun p => p.1 == e)).map (fun p => p.2)

/-- `child_menu` from `resolve.rs`: the menu whose `focus_parent` is the
given focusable. -/
def child_menu (w : World) (e : Nat) : Option (Nat × TreeMenu × MenuSetting) :=
  w.menus.find? (fun t => t.2.1.focus_parent == some e)

/-- `NavQueries::parent_menu` from `resolve.rs`, with explicit fuel for
the walk up the bevy hierarchy. -/
def parentMenuF (w : World) : Nat → Nat → Res (Option (Nat × TreeMenu × MenuSetting))
  | 0, _ => .diverge
  | fuel + 1, e =>
    match lookupParent w e with
    | none => .ok none
    | some p =>
      match lookupMenu w p with
      | some ms => .ok (some (p, ms.1, ms.2))
      | none => parentMenuF w fuel p

/-- `parent_menu` at its canonical fuel: on a well-formed hierarchy
(parent ids strictly smaller than child ids) the walk from `e` takes at
most `e` steps. -/
def parent_menu (w : World) (e : Nat) : Res (Option (Nat × TreeMenu × MenuSetting)) :=
  parentMenuF w (e + 1) e

/-- Panic message of the cycle assertion in `root_path` and `resolve`. -/
def cycleMsg : String := "Navigation graph cycle detected!"

/-- Panic message of the focusable assertion in `resolve`. -/
def focusableMsg : String := "The resolution algorithm MUST go from a focusable element"

/-- The loop of `NavQueries::root_path` from `resolve.rs`: ascend the
`focus_parent` links, asserting that the node about to be visited is not
already in the breadcrumb. -/
def rootPathF (w : World) : Nat → Nat → List Nat → Res (List Nat)
  | 0, _, _ => .diverge
  | fuel + 1, e, ret =>
    match parent_menu w e with
    | .panic s => .panic s
    | .diverge => .diverge
    | .ok none => .ok ret
    | .ok (some t) =>
      match t.2.1.focus_parent with
      | none => .ok ret
      | some fp =>
        if fp ∈ ret then .panic cycleMsg
        else rootPathF w fuel fp (ret ++ [fp])

/-- `NavQueries::root_path` from `resolve.rs`. -/
def root_path (w : World) (fuel : Nat) (e : Nat) : Res (List Nat) :=
  rootPathF w fuel e [e]

/-- Bound on entity ids mentioned in the hierarchy, used as the canonical
fuel of the `focusables_of` recursion. -/
def ebound (w : World) : Nat :=
  1 + ((w.children.map (fun c => c.1)) ++ (w.children.map (fun c => c.2)).flatten).foldl max 0

/-- Sequence a fallible computation over a list, concatenating the
results (Rust `flat_map` inside `focusables_of`). -/
def resFlatMap (f : Nat → Res (List Nat)) : List Nat → Res (List Nat)
  | [] => .ok []
  | x :: xs =>
    match f x with
    | .panic s => .panic s
    | .diverge => .diverge
    | .ok l =>
      match resFlatMap f xs with
      | .panic s => .panic s
      | .diverge => .diverge
      | .ok ls => .ok (l ++ ls)

/-- `ChildQueries::focusables_of` from `resolve.rs`: the non-`Blocked`
focusable children of a menu, recursing through plain children but
stopping at nested menu boundaries. -/
def focusablesOfF (w : World) : Nat → Nat → Res (List Nat)
  | 0, _ => .diverge
  | fuel + 1, menu =>
    match lookupChildren w menu with
    | none => .ok []
    | some direct =>
      let focusable := direct.filter (fun e =>
        match lookupF w.focusables e with
        | some f => f.state != .Blocked
        | none => false)
      let plain := direct.filter (fun e =>
        (lookupF w.focusables e).isNone && (lookupMenu w e).isNone)
      match resFlatMap (focusablesOfF w fuel) plain with
      | .panic s => .panic s
      | .diverge => .diverge
      | .ok transitive => .ok (focusable ++ transitive)

/-- `focusables_of` at its canonical fuel. -/
def focusables_of (w : World) (e : Nat) : Res (List Nat) :=
  focusablesOfF w (ebound w) e

/-- `focus_deep` from `resolve.rs`: descend the menu tree through
`active_child` links, accumulating the path deepest-first
(`ret.insert(0, last)`). -/
def focusDeepF (w : World) : Nat → TreeMenu → List Nat → Res (List Nat)
  | 0, _, _ => .diverge
  | fuel + 1, menu, acc =>
    let last := menu.active_child
    match child_menu w last with
    | some t => focusDeepF w fuel t.2.1 (last :: acc)
    | none => .ok (last :: acc)

/-- The loop of `NavQueries::active_menu` from `resolve.rs`. -/
def activeMenuF (w : World) : Nat → Nat → Nat → Bool → Res (Option (Nat × Nat))
  | 0, _, _, _ => .diverge
  | fuel + 1, entity, active_child, repeated =>
    let step : Option (Nat × Nat) :=
      match lookupF w.focusables active_child with
      | none => none
      | some focus =>
        if focus.state = .Active then
          match child_menu w active_child with
          | some t => some (t.1, t.2.1.active_child)
          | none => none
        else none
    match step with
    | some p => activeMenuF w fuel p.1 p.2 true
    | none => if repeated then .ok (some (entity, active_child)) else .ok none

/-- `any_in_menu` closure of `pick_first_focused` from `resolve.rs`. -/
def any_in_menu (w : World) (entity active_child : Nat) : Res (Option Nat) :=
  match lookupF w.focusables active_child with
  | some _ => .ok (some active_child)
  | none =>
    match focusables_of w entity with
    | .panic s => .panic s
    | .diverge => .diverge
    | .ok l => .ok l.head?

/-- `NavQueries::pick_first_focused` from `resolve.rs`. -/
def pick_first_focused (w : World) (fuel : Nat) : Res (Option Nat) :=
  let iterFocused := w.focusables.filter (fun p => p.2.state != .Blocked)
  let rootMenu := w.menus.find? (fun t => t.2.1.focus_parent == none)
  let anyPrioritized := iterFocused.findSome?
    (fun p => if p.2.state ≠ .Inert then some p.1 else none)
  let fallback := (iterFocused.head?).map (fun p => p.1)
  match iterFocused.findSome? (fun p => if p.2.state = .Focused then some p.1 else none) with
  | some f => .ok (some f)
  | none =>
    match rootMenu with
    | none => .ok (anyPrioritized.orElse (fun _ => fallback))
    | some rt =>
      match activeMenuF w fuel rt.1 rt.2.1.active_child false with
      | .panic s => .panic s
      | .diverge => .diverge
      | .ok ractive =>
        let inActive : Res (Option Nat) :=
          match ractive with
          | some p => any_in_menu w p.1 p.2
          | none => .ok none
        match inActive with
        | .panic s => .panic s
        | .diverge => .diverge
        | .ok (some x) => .ok (some x)
        | .ok none =>
          match anyPrioritized with
          | some x => .ok (some x)
          | none =>
            match any_in_menu w rt.1 rt.2.1.active_child with
            | .panic s => .panic s
            | .diverge => .diverge
            | .ok (some x) => .ok (some x)
            | .ok none => .ok fallback

/-- `resolve` from `resolve.rs`: the core resolution algorithm.  `stgy`
is the injected `MenuNavigationStrategy`; `dfuel` bounds the `focus_deep`
descent, `rfuel` the `root_path` ascent, and the main fuel the recursive
re-invocations (`Action`-as-`Cancel` and `ScopeMove` bubbling).  The two
`assert!`s at the top are the `panic` outcomes. -/
def resolveF (w : World) (stgy : Nat → Direction → Bool → List Nat → Option Nat)
    (dfuel rfuel : Nat) :
    Nat → Nat → NavRequest → Option LockReason → List Nat →
      Res (NavEvent × Option LockReason)
  | 0, _, _, _, _ => .diverge
  | fuel + 1, focused, request, lock, from0 =>
    if (lookupF w.focusables focused).isNone then .panic focusableMsg
    else if focused ∈ from0 then .panic cycleMsg
    else
      let frm := from0 ++ [focused]
      match request with
      | .Lock =>
        if lock.isSome then .ok (.NoChanges frm .Lock, lock)
        else .ok (.Locked .NavRequest, some .NavRequest)
      | .Move d =>
        match parent_menu w focused with
        | .panic s => .panic s
        | .diverge => .diverge
        | .ok (some t) =>
          if t.2.2.is_2d then
            match focusables_of w t.1 with
            | .panic s => .panic s
            | .diverge => .diverge
            | .ok siblings =>
              match stgy focused d (!t.2.2.bound) siblings with
              | some dest => .ok (.FocusChanged [dest] frm, lock)
              | none => .ok (.NoChanges frm (.Move d), lock)
          else .ok (.NoChanges frm (.Move d), lock)
        | .ok none =>
          let siblings := (w.focusables.filter (fun p => p.2.state != .Blocked)).map
            (fun p => p.1)
          match stgy focused d true siblings with
          | some dest => .ok (.FocusChanged [dest] frm, lock)
          | none => .ok (.NoChanges frm (.Move d), lock)
      | .Cancel =>
        match parent_menu w focused with
        | .panic s => .panic s
        | .diverge => .diverge
        | .ok none => .ok (.NoChanges frm .Cancel, lock)
        | .ok (some t) =>
          match t.2.1.focus_parent with
          | none => .ok (.NoChanges frm .Cancel, lock)
          | some dest => .ok (.FocusChanged [dest] (frm ++ [dest]), lock)
      | .Action =>
        match (lookupF w.focusables focused).map (fun f => f.action) with
        | some FocusAction.Cancel =>
          resolveF w stgy dfuel rfuel fuel focused .Cancel lock frm.dropLast
        | some FocusAction.Lock =>
          .ok (.Locked (.Focusable focused), some (.Focusable focused))
        | _ =>
          match child_menu w focused with
          | none => .ok (.NoChanges frm .Action, lock)
          | some t => .ok (.FocusChanged (t.2.1.active_child :: frm) frm, lock)
      | .ScopeMove sd =>
        match parent_menu w focused with
        | .panic s => .panic s
        | .diverge => .diverge
        | .ok none => .ok (.NoChanges frm (.ScopeMove sd), lock)
        | .ok (some t) =>
          match focusables_of w t.1 with
          | .panic s => .panic s
          | .diverge => .diverge
          | .ok siblings =>
            if t.2.2.is_scope then
              match resolve_scope focused sd (!t.2.2.bound) siblings with
              | none => .ok (.NoChanges frm (.ScopeMove sd), lock)
              | some dest =>
                match child_menu w dest with
                | some tm =>
                  match focusDeepF w dfuel tm.2.1 [] with
                  | .panic s => .panic s
                  | .diverge => .diverge
                  | .ok extra => .ok (.FocusChanged (extra ++ [dest]) frm, lock)
                | none => .ok (.FocusChanged [dest] frm, lock)
            else
              match t.2.1.focus_parent with
              | none => .ok (.NoChanges frm (.ScopeMove sd), lock)
              | some fp => resolveF w stgy dfuel rfuel fuel fp (.ScopeMove sd) lock frm
      | .FocusOn target =>
        match root_path w rfuel focused with
        | .panic s => .panic s
        | .diverge => .diverge
        | .ok f1 =>
          match root_path w rfuel target with
          | .panic s => .panic s
          | .diverge => .diverge
          | .ok t1 =>
            let p := trim_common_tail f1 t1
            if p.1 = p.2 then .ok (.NoChanges p.1 (.FocusOn target), lock)
            else .ok (.FocusChanged p.2 p.1, lock)
      | .Unlock =>
        match lock with
        | some r => .ok (.Unlocked r, none)
        | none => .ok (.NoChanges frm .Unlock, lock)

/-- `MutQueries::set_entity_focus` from `resolve.rs`: set the state of an
entity's `Focusable`, if it has one. -/
def set_entity_focus (w : World) (e : Nat) (s : FocusState) : World :=
  let fs := w.focusables.map (fun p => if p.1 == e then (p.1, { p.2 with state := s }) else p)
  { w with focusables := fs }

/-- The loop of `MutQueries::set_active_child` from `resolve.rs`: walk up
from `child` to the enclosing menu, point its `active_child` at `child`
and set the previous `active_child` to `Inert`. -/
def setActiveChildF (w : World) : Nat → Nat → Nat → World
  | 0, _, _ => w
  | fuel + 1, node, child =>
    match lookupParent w node with
    | none => w
    | some p =>
      match lookupMenu w p with
      | some ms =>
        let prev := ms.1.active_child
        let ms1 := w.menus.map
          (fun t => if t.1 == p then (t.1, { t.2.1 with active_child := child }, t.2.2) else t)
        set_entity_focus { w with menus := ms1 } prev .Inert
      | none => setActiveChildF w fuel p child

/-- `MutQueries::set_active_child` from `resolve.rs`. -/
def set_active_child (w : World) (fuel : Nat) (child : Nat) : World :=
  setActiveChildF w fuel child child

/-- `MutQueries::update_focus` from `resolve.rs`: apply a `FocusChanged`
event to the graph.  Returns the updated world and the new focused
entity (the `0` in the empty-`to` branch is dead code: `to` is a
`NonEmpty` in the source). -/
def update_focus (w : World) (fuel : Nat) (frm dest : List Nat) : World × Nat :=
  match dest with
  | [] => (w, 0)
  | t0 :: trest =>
    if dest = frm then (w, t0)
    else
      let w1 := match frm.getLast? with
        | some d => set_entity_focus w d .Inert
        | none => w
      let w2 := frm.dropLast.foldl (fun acc e => set_entity_focus acc e .Prioritized) w1
      let w3 := set_active_child w2 fuel t0
      let w4 := set_entity_focus w3 t0 .Focused
      let w5 := trest.foldl
        (fun acc e => set_entity_focus (set_active_child acc fuel e) e .Active) w4
      (w5, t0)

/-- State threaded through `listen_nav_requests`: the graph, the
`NavLock` resource and the `computed_focused` cache. -/
structure NavState where
  world : World
  lock : Option LockReason
  computed : Option Nat

/-- The request loop of `listen_nav_requests` from `resolve.rs`: skip
everything but `Unlock` while locked, pick the focused entity, resolve,
and apply `FocusChanged` events through `update_focus`.  An absent
focused entity aborts the loop (`return` after the warning). -/
def listenLoopF (w0 : World) (stgy : Nat → Direction → Bool → List Nat → Option Nat)
    (fuel : Nat) :
    List NavRequest → NavState → List NavEvent → Res (NavState × List NavEvent)
  | [], st, evs => .ok (st, evs)
  | request :: rest, st, evs =>
    if st.lock.isSome ∧ request ≠ .Unlock then listenLoopF w0 stgy fuel rest st evs
    else
      let picked : Res (Option Nat) :=
        match st.computed with
        | some f => .ok (some f)
        | none => pick_first_focused st.world fuel
      match picked with
      | .panic s => .panic s
      | .diverge => .diverge
      | .ok none => .ok (st, evs)
      | .ok (some focused) =>
        match resolveF st.world stgy fuel fuel fuel focused request st.lock [] with
        | .panic s => .panic s
        | .diverge => .diverge
        | .ok (ev, lock1) =>
          match ev with
          | .FocusChanged dest frm =>
            let wr := update_focus st.world fuel frm dest
            listenLoopF w0 stgy fuel rest ⟨wr.1, lock1, some wr.2⟩ (evs ++ [ev])
          | _ => listenLoopF w0 stgy fuel rest ⟨st.world, lock1, st.computed⟩ (evs ++ [ev])

/-- `listen_nav_requests` from `resolve.rs`, as a function of the batch
of requests read this frame. -/
def listen_nav_requests (w : World)
    (stgy : Nat → Direction → Bool → List Nat → Option Nat) (fuel : Nat)
    (lock : Option LockReason) (requests : List NavRequest) :
    Res (NavState × List NavEvent) :=
  listenLoopF w stgy fuel requests ⟨w, lock, none⟩ []

/-- Modelled from the spec: length of the longest common prefix of two
lists (used, on reversed lists, to phrase what `trim_common_tail` must
remove). -/
def commonPrefixLen : List Nat → List Nat → Nat
  | x :: xs, y :: ys => if x = y then commonPrefixLen xs ys + 1 else 0
  | _, _ => 0

/-- Modelled from the spec: length of the longest common suffix. -/
def commonSuffixLen (l1 l2 : List Nat) : Nat :=
  commonPrefixLen l1.reverse l2.reverse

/-- Modelled from the spec: drop the longest common suffix from both
breadcrumbs, keeping only the divergent prefixes. -/
def specTrim (l1 l2 : List Nat) : List Nat × List Nat :=
  (l1.take (l1.length - commonSuffixLen l1 l2),
   l2.take (l2.length - commonSuffixLen l1 l2))

theorem maxByKey_mem {key : Nat → Int} {l : List Nat} {x : Nat}
    (h : maxByKey key l = some x) : x ∈ l := by
  induction l with
  | nil => simp [maxByKey] at h
  | cons a as ih =>
    cases hm : maxByKey key as with
    | none =>
      simp only [maxByKey, hm] at h
      simp at h
      simp [h]
    | some y =>
      simp only [maxByKey, hm] at h
      by_cases hk : key y < key a
      · rw [if_pos hk] at h
        simp at h
        simp [h]
      · rw [if_neg hk] at h
        simp at h
        subst h
        exact List.mem_cons_of_mem _ (ih hm)

theorem maxByKey_le {key : Nat → Int} {l : List Nat} {x : Nat}
    (h : maxByKey key l = some x) : ∀ y ∈ l, key y ≤ key x := by
  induction l generalizing x with
  | nil => simp [maxByKey] at h
  | cons a as ih =>
    cases hm : maxByKey key as with
    | none =>
      simp only [maxByKey, hm] at h
      simp at h
      subst h
      cases as with
      | nil =>
        intro y hy
        simp at hy
        simp [hy]
      | cons b bs =>
        exfalso
        cases hbs : maxByKey key bs with
        | none =>
          simp only [maxByKey, hbs] at hm
          exact Option.noConfusion hm
        | some z =>
          simp only [maxByKey, hbs] at hm
          by_cases hk : key z < key b
          · rw [if_pos hk] at hm; exact Option.noConfusion hm
          · rw [if_neg hk] at hm; exact Option.noConfusion hm
    | some z =>
      simp only [maxByKey, hm] at h
      intro y hy
      by_cases hk : key z < key a
      · rw [if_pos hk] at h
        simp at h
        subst h
        rcases List.mem_cons.mp hy with rfl | hy2
        · exact le_refl _
        · exact le_trans (ih hm y hy2) (le_of_lt hk)
      · rw [if_neg hk] at h
        simp at h
        subst h
        rcases List.mem_cons.mp hy with rfl | hy2
        · exact le_of_not_lt hk
        · exact ih hm y hy2

theorem maxByKey_isSome {key : Nat → Int} {l : List Nat} (h : l ≠ []) :
    (maxByKey key l).isSome := by
  cases l with
  | nil => exact absurd rfl h
  | cons a as =>
    cases hm : maxByKey key as with
    | none => simp [maxByKey, hm]
    | some y =>
      simp only [maxByKey, hm]
      by_cases hk : key y < key a <;> simp [hk]

/-- C3 counterexample: on the exact diagonal offset `(1, 1)` none of the
four direction cones holds, refuting both "exactly one of
North/South/East/West applies" and "diagonal ties resolve to the North
or South cone". -/
theorem direction_cone_claim_false :
    ¬ (Direction.North.is_in (0, 0) (1, 1) = true ∨
       Direction.South.is_in (0, 0) (1, 1) = true ∨
       Direction.East.is_in (0, 0) (1, 1) = true ∨
       Direction.West.is_in (0, 0) (1, 1) = true) := by decide

/-- C3, amended: for every nonzero relative offset, exactly one of the
four `Direction::is_in` cones holds when `|dy| != |dx|`; on an exact
diagonal (`|dy| == |dx|`, including nonzero ones) no cone holds at all
(the strict inequalities exclude the boundary). -/
theorem direction_cone_partition (r o : Int × Int)
    (hne : ¬(o.1 - r.1 = 0 ∧ o.2 - r.2 = 0)) :
    ((o.2 - r.2).natAbs ≠ (o.1 - r.1).natAbs →
      ∃! d : Direction, d.is_in r o = true) ∧
    ((o.2 - r.2).natAbs = (o.1 - r.1).natAbs →
      ∀ d : Direction, d.is_in r o = false) := by
  have hS : Direction.South.is_in r o = true ↔
      (o.2 - r.2 < o.1 - r.1 ∧ o.2 - r.2 < -(o.1 - r.1)) := by
    simp [Direction.is_in]
  have hN : Direction.North.is_in r o = true ↔
      (o.2 - r.2 > o.1 - r.1 ∧ o.2 - r.2 > -(o.1 - r.1)) := by
    simp [Direction.is_in]
  have hE : Direction.East.is_in r o = true ↔
      (o.2 - r.2 < o.1 - r.1 ∧ o.2 - r.2 > -(o.1 - r.1)) := by
    simp [Direction.is_in]
  have hW : Direction.West.is_in r o = true ↔
      (o.2 - r.2 > o.1 - r.1 ∧ o.2 - r.2 < -(o.1 - r.1)) := by
    simp [Direction.is_in]
  constructor
  · intro habs
    have hcases : (o.2 - r.2 < o.1 - r.1 ∧ o.2 - r.2 < -(o.1 - r.1)) ∨
        (o.2 - r.2 > o.1 - r.1 ∧ o.2 - r.2 > -(o.1 - r.1)) ∨
        (o.2 - r.2 < o.1 - r.1 ∧ o.2 - r.2 > -(o.1 - r.1)) ∨
        (o.2 - r.2 > o.1 - r.1 ∧ o.2 - r.2 < -(o.1 - r.1)) := by omega
    rcases hcases with h1 | h1 | h1 | h1
    · refine ⟨.South, hS.mpr h1, ?_⟩
      intro d hd
      cases d
      · rfl
      · exact absurd (hN.mp hd) (by omega)
      · exact absurd (hE.mp hd) (by omega)
      · exact absurd (hW.mp hd) (by omega)
    · refine ⟨.North, hN.mpr h1, ?_⟩
      intro d hd
      cases d
      · exact absurd (hS.mp hd) (by omega)
      · rfl
      · exact absurd (hE.mp hd) (by omega)
      · exact absurd (hW.mp hd) (by omega)
    · refine ⟨.East, hE.mpr h1, ?_⟩
      intro d hd
      cases d
      · exact absurd (hS.mp hd) (by omega)
      · exact absurd (hN.mp hd) (by omega)
      · rfl
      · exact absurd (hW.mp hd) (by omega)
    · refine ⟨.West, hW.mpr h1, ?_⟩
      intro d hd
      cases d
      · exact absurd (hS.mp hd) (by omega)
      · exact absurd (hN.mp hd) (by omega)
      · exact absurd (hE.mp hd) (by omega)
      · rfl
  · intro habs d
    have hb : ∀ b : Bool, b ≠ true → b = false := by decide
    cases d
    · exact hb _ (fun hh => absurd (hS.mp hh) (by omega))
    · exact hb _ (fun hh => absurd (hN.mp hh) (by omega))
    · exact hb _ (fun hh => absurd (hE.mp hh) (by omega))
    · exact hb _ (fun hh => absurd (hW.mp hh) (by omega))

/-- Witness for `direction_cone_partition` at the concrete offset
`(2, 1)` (east cone) and the nonzero diagonal `(1, 1)`. -/
theorem direction_cone_partition_witness :
    (∃! d : Direction, d.is_in (0, 0) (2, 1) = true) ∧
    (∀ d : Direction, d.is_in (0, 0) (1, 1) = false) :=
  ⟨(direction_cone_partition (0, 0) (2, 1) (by decide)).1 (by decide),
   (direction_cone_partition (0, 0) (1, 1) (by decide)).2 (by decide)⟩

/-- C6: `resolve_scope`/`resolve_index` index arithmetic over a scope
menu sibling list containing `focused` at (first) index `i`:
`Previous` at index 0 wraps to `len - 1` iff `cycles`, else dead end
(`none`, reported as `NoChanges` by `resolve`); `Next` at `len - 1`
wraps to 0 iff `cycles`, else dead end; otherwise `Previous` yields
`i - 1` and `Next` yields `i + 1`. -/
theorem scope_move_index (siblings : List Nat) (focused : Nat) (i : Nat)
    (cycles : Bool) (hfi : siblings.findIdx? (fun e => e == focused) = some i) :
    (i = 0 → resolve_scope focused .Previous cycles siblings =
      if cycles then siblings.get? (siblings.length - 1) else none) ∧
    (i = siblings.length - 1 → resolve_scope focused .Next cycles siblings =
      if cycles then siblings.get? 0 else none) ∧
    (0 < i → resolve_scope focused .Previous cycles siblings = siblings.get? (i - 1)) ∧
    (i < siblings.length - 1 →
      resolve_scope focused .Next cycles siblings = siblings.get? (i + 1)) := by
  refine ⟨?_, ?_, ?_, ?_⟩
  · rintro rfl
    cases cycles <;> simp [resolve_scope, hfi, resolve_index]
  · intro h
    subst h
    cases cycles <;> simp [resolve_scope, hfi, resolve_index]
  · intro h
    obtain ⟨k, rfl⟩ : ∃ k, i = k + 1 := ⟨i - 1, by omega⟩
    simp [resolve_scope, hfi, resolve_index]
  · intro h
    have hne : ¬ i = siblings.length - 1 := by omega
    simp [resolve_scope, hfi, resolve_index, hne]

/-- Witness for `scope_move_index`: the spec's 4-item scope menu,
`Previous` at index 0 with and without wrapping. -/
theorem scope_move_index_witness :
    resolve_scope 10 .Previous true [10, 11, 12, 13] = some 13 ∧
    resolve_scope 10 .Previous false [10, 11, 12, 13] = none := by
  constructor
  · have h := (scope_move_index [10, 11, 12, 13] 10 0 true (by decide)).1 rfl
    simpa using h
  · have h := (scope_move_index [10, 11, 12, 13] 10 0 false (by decide)).1 rfl
    simpa using h

theorem trimRevAux_spec (r1 r2 : List Nat) :
    (commonPrefixLen r1 r2 < r1.length ∧ commonPrefixLen r1 r2 < r2.length →
      trimRevAux r1 r2 =
        some (r1.drop (commonPrefixLen r1 r2), r2.drop (commonPrefixLen r1 r2))) ∧
    (commonPrefixLen r1 r2 = min r1.length r2.length → trimRevAux r1 r2 = none) := by
  induction r1 generalizing r2 with
  | nil =>
    constructor
    · intro h
      simp [commonPrefixLen] at h
    · intro h
      cases r2 <;> simp [trimRevAux]
  | cons x xs ih =>
    cases r2 with
    | nil =>
      constructor
      · intro h
        simp [commonPrefixLen] at h
      · intro h
        simp [trimRevAux]
    | cons y ys =>
      by_cases hxy : x = y
      · subst hxy
        have hcp : commonPrefixLen (x :: xs) (x :: ys) = commonPrefixLen xs ys + 1 := by
          simp [commonPrefixLen]
        constructor
        · intro h
          rw [hcp] at h
          simp at h
          have hxs : ¬xs.isEmpty := by
            cases xs
            · simp [commonPrefixLen] at h
            · simp
          have hys : ¬ys.isEmpty := by
            cases ys
            · simp [commonPrefixLen] at h
            · simp
          rw [trimRevAux]
          simp only [ne_eq, not_true_eq_false, if_false, hxs, hys, Bool.or_self, if_neg,
            Bool.false_eq_true]
          rw [hcp]
          simp only [List.drop_succ_cons]
          exact (ih ys).1 ⟨by omega, by omega⟩
        · intro h
          rw [hcp] at h
          simp at h
          rw [trimRevAux]
          cases hxs : xs.isEmpty
          · cases hys : ys.isEmpty
            · simp only [ne_eq, not_true_eq_false, if_false, hxs, hys, Bool.or_self]
              simp only [Bool.false_eq_true, if_neg]
              apply (ih ys).2
              have h1 : ¬xs = [] := by simpa [List.isEmpty_iff] using hxs
              have h2 : ¬ys = [] := by simpa [List.isEmpty_iff] using hys
              cases xs
              · exact absurd rfl h1
              · cases ys
                · exact absurd rfl h2
                · simp at h ⊢
                  omega
            · simp
          · simp
      · have hcp : commonPrefixLen (x :: xs) (y :: ys) = 0 := by
          simp [commonPrefixLen, hxy]
        constructor
        · intro h
          rw [hcp]
          simp [trimRevAux, hxy]
        · intro h
          rw [hcp] at h
          simp at h
          omega

theorem rev_drop_rev (l : List Nat) (k : Nat) :
    (l.reverse.drop k).reverse = l.take (l.length - k) := by
  rw [List.drop_reverse, List.reverse_reverse]

/-- C5 counterexample: when one breadcrumb is a suffix of the other
(here `[1, 2]` and `[2]`, common suffix `[2]`), `trim_common_tail`
leaves both breadcrumbs unchanged instead of removing the longest common
suffix as the claim states. -/
theorem trim_common_tail_claim_false :
    trim_common_tail [1, 2] [2] ≠ specTrim [1, 2] [2] ∧
    trim_common_tail [1, 2] [2] = ([1, 2], [2]) := by decide

/-- C5, amended: `trim_common_tail` removes exactly the longest common
suffix from both breadcrumbs whenever both divergent prefixes are
non-empty (the common suffix is shorter than either list); when one
breadcrumb is a suffix of the other (including equality) it leaves both
unchanged. -/
theorem trim_common_tail_spec (l1 l2 : List Nat) :
    (commonSuffixLen l1 l2 < l1.length ∧ commonSuffixLen l1 l2 < l2.length →
      trim_common_tail l1 l2 = specTrim l1 l2) ∧
    (commonSuffixLen l1 l2 = min l1.length l2.length →
      trim_common_tail l1 l2 = (l1, l2)) := by
  have hcs : commonSuffixLen l1 l2 = commonPrefixLen l1.reverse l2.reverse := rfl
  constructor
  · intro h
    rw [hcs] at h
    have h1 := (trimRevAux_spec l1.reverse l2.reverse).1
      (by simpa [List.length_reverse] using h)
    rw [trim_common_tail, h1]
    simp only [specTrim, hcs]
    rw [rev_drop_rev, rev_drop_rev]
  · intro h
    rw [hcs] at h
    have h1 := (trimRevAux_spec l1.reverse l2.reverse).2
      (by simpa [List.length_reverse] using h)
    rw [trim_common_tail, h1]

/-- Witness for `trim_common_tail_spec`: the spec's `FocusOn` example,
breadcrumbs `[1, 2, 3, 4]` and `[5, 2, 3, 4]` trim to `[1]` and `[5]`. -/
theorem trim_common_tail_spec_witness :
    trim_common_tail [1, 2, 3, 4] [5, 2, 3, 4] = ([1], [5]) := by
  have h := (trim_common_tail_spec [1, 2, 3, 4] [5, 2, 3, 4]).1 (by decide)
  rw [h]
  decide

/-- Boundary setup for the C4 counterexample. -/
def qC4 : UiProjection :=
  { boundaries := some (ScreenBoundaries.mk (0, 0) (Rect.mk (100, 100) (-100, -100)) 1),
    pos := fun _ => (0, 0) }

/-- C4 counterexample: with `cycles = true` and `ScreenBoundaries`
present, the wraparound branch of `resolve_2d` searches `siblings`
without excluding `focused` and returns the focused entity itself. -/
theorem resolve_2d_returns_focused :
    resolve_2d qC4 5 Direction.West true [5] = some 5 := by
  simp [resolve_2d, qC4, maxByKey, Direction.is_in]

/-- C4, amended: `resolve_2d` never returns `focused` itself as long as
the boundary-wraparound branch is not taken (`cycles` false, or no
`ScreenBoundaries` resource); the wraparound branch can return
`focused` (see the counterexample). -/
theorem resolve_2d_no_self (q : UiProjection) (focused : Nat) (d : Direction)
    (cycles : Bool) (siblings : List Nat)
    (h : cycles = false ∨ q.boundaries = none) :
    resolve_2d q focused d cycles siblings ≠ some focused := by
  intro hres
  simp only [resolve_2d] at hres
  cases hcl : maxByKey (fun s => -(dist2 (q.pos focused) (q.pos s)))
      (siblings.filter (fun s => d.is_in (q.pos focused) (q.pos s) && s != focused)) with
  | some c =>
    rw [hcl] at hres
    simp at hres
    have hmem := maxByKey_mem hcl
    have hpred := (List.mem_filter.mp hmem).2
    simp at hpred
    exact hpred.2 hres
  | none =>
    rw [hcl] at hres
    cases hb : q.boundaries with
    | none => rw [hb] at hres; simp at hres
    | some b =>
      rw [hb] at hres
      rcases h with rfl | h2
      · simp at hres
      · rw [hb] at h2; exact Option.noConfusion h2

/-- Witness for `resolve_2d_no_self` with no boundary resource. -/
theorem resolve_2d_no_self_witness :
    resolve_2d { boundaries := none, pos := fun _ => (0, 0) } 5 Direction.West true [5] ≠
      some 5 :=
  resolve_2d_no_self _ 5 Direction.West true [5] (Or.inr rfl)

/-- Setup for the C9 counterexample: no boundary metadata, sibling 2 to
the east of focused 1. -/
def qC9 : UiProjection :=
  { boundaries := none, pos := fun e => if e = 2 then (10, 0) else (0, 0) }

/-- C9 counterexample: `cycles = true`, no sibling in the `West` cone
and no `ScreenBoundaries`: `resolve_2d` warns and returns `none`, even
though sibling 2 lies in the opposite (`East`) cone — there is no
farthest-in-the-opposite-direction fallback. -/
theorem resolve_2d_wrap_fallback_missing :
    resolve_2d qC9 1 Direction.West true [1, 2] = none ∧
    Direction.East.is_in (qC9.pos 1) (qC9.pos 2) = true := by decide

/-- C9, amended: when `cycles` is true and no sibling is in the cone,
`resolve_2d` runs the wraparound search from the opposite-edge virtual
origin only when `ScreenBoundaries` is available, returning a sibling
nearest to that origin (no cone filter); without boundary metadata it
returns `none` (after a warning) — it does not fall back to the sibling
farthest in the opposite direction. -/
theorem resolve_2d_wrap (q : UiProjection) (focused : Nat) (d : Direction)
    (siblings : List Nat)
    (hc : ∀ s ∈ siblings, d.is_in (q.pos focused) (q.pos s) = false ∨ s = focused) :
    (q.boundaries = none → resolve_2d q focused d true siblings = none) ∧
    (∀ b, q.boundaries = some b → siblings ≠ [] →
      ∃ s ∈ siblings, resolve_2d q focused d true siblings = some s ∧
        ∀ u ∈ siblings,
          dist2 (wrapOrigin d b (q.pos focused)) (q.pos s) ≤
            dist2 (wrapOrigin d b (q.pos focused)) (q.pos u)) := by
  have hcand : siblings.filter
      (fun s => d.is_in (q.pos focused) (q.pos s) && s != focused) = [] := by
    rw [List.filter_eq_nil_iff]
    intro a ha
    rcases hc a ha with h1 | rfl
    · simp [h1]
    · simp
  constructor
  · intro hb
    simp only [resolve_2d, hcand, hb, maxByKey]
  · intro b hb hne
    have heq : resolve_2d q focused d true siblings =
        maxByKey (fun s => -(dist2 (wrapOrigin d b (q.pos focused)) (q.pos s))) siblings := by
      simp only [resolve_2d, hcand, hb, maxByKey]
      rw [if_pos trivial]
    obtain ⟨s, hs⟩ := Option.isSome_iff_exists.mp
      (@maxByKey_isSome (fun s => -(dist2 (wrapOrigin d b (q.pos focused)) (q.pos s)))
        siblings hne)
    refine ⟨s, maxByKey_mem hs, heq.trans hs, ?_⟩
    intro u hu
    have := maxByKey_le hs u hu
    omega

/-- Witness for `resolve_2d_wrap` with no boundary resource. -/
theorem resolve_2d_wrap_witness :
    resolve_2d { boundaries := none, pos := fun _ => (0, 0) } 7 Direction.North true [7] =
      none :=
  (resolve_2d_wrap { boundaries := none, pos := fun _ => (0, 0) } 7 Direction.North [7]
    (by decide)).1 rfl

/-- C7: the `Lock` and `Unlock` arms of `resolve`.  `Lock` while locked
returns `NoChanges` leaving the lock reason unchanged, `Lock` while
unlocked sets `Locked(NavRequest)` (the explicit-request reason);
`Unlock` while locked clears the lock and returns `Unlocked(reason)`,
`Unlock` while unlocked returns `NoChanges` (after a diagnostic warning)
leaving the lock unset. -/
theorem lock_unlock_arms (w : World)
    (stgy : Nat → Direction → Bool → List Nat → Option Nat)
    (df rf fuel : Nat) (focused : Nat) (r : LockReason)
    (hfoc : (lookupF w.focusables focused).isSome) :
    resolveF w stgy df rf (fuel + 1) focused .Lock (some r) [] =
      .ok (.NoChanges [focused] .Lock, some r) ∧
    resolveF w stgy df rf (fuel + 1) focused .Lock none [] =
      .ok (.Locked .NavRequest, some .NavRequest) ∧
    resolveF w stgy df rf (fuel + 1) focused .Unlock (some r) [] =
      .ok (.Unlocked r, none) ∧
    resolveF w stgy df rf (fuel + 1) focused .Unlock none [] =
      .ok (.NoChanges [focused] .Unlock, none) := by
  obtain ⟨f, hf⟩ := Option.isSome_iff_exists.mp hfoc
  refine ⟨?_, ?_, ?_, ?_⟩ <;> simp [resolveF, hf]

/-- Concrete world for driving-loop witnesses: one focusable entity. -/
def wSolo : World :=
  { focusables := [(1, { state := .Focused, action := .Normal })],
    menus := [], parents := [], children := [] }

/-- Witness for `lock_unlock_arms` on a one-focusable world. -/
theorem lock_unlock_arms_witness :
    resolveF wSolo (fun _ _ _ _ => none) 0 0 1 1 .Lock none [] =
      .ok (.Locked .NavRequest, some .NavRequest) ∧
    resolveF wSolo (fun _ _ _ _ => none) 0 0 1 1 .Unlock (some .NavRequest) [] =
      .ok (.Unlocked .NavRequest, none) :=
  ⟨(lock_unlock_arms wSolo (fun _ _ _ _ => none) 0 0 0 1 .NavRequest (by decide)).2.1,
   (lock_unlock_arms wSolo (fun _ _ _ _ => none) 0 0 0 1 .NavRequest (by decide)).2.2.1⟩

/-- C10: when the resolver returns anything other than `FocusChanged`,
the driving loop performs no mutation: it continues with the same world
and `computed_focused` cache (only the lock resource may have changed),
merely emitting the event.  In addition `update_focus` with `to` equal
to `from` returns the focused head immediately, leaving the world
untouched. -/
theorem listen_no_mutation (w0 : World)
    (stgy : Nat → Direction → Bool → List Nat → Option Nat) (fuel : Nat)
    (st : NavState) (request : NavRequest) (rest : List NavRequest)
    (evs : List NavEvent) (f : Nat) (ev : NavEvent) (l1 : Option LockReason) :
    (¬(st.lock.isSome ∧ request ≠ .Unlock) → st.computed = some f →
      resolveF st.world stgy fuel fuel fuel f request st.lock [] = .ok (ev, l1) →
      (∀ a b, ev ≠ .FocusChanged a b) →
      listenLoopF w0 stgy fuel (request :: rest) st evs =
        listenLoopF w0 stgy fuel rest ⟨st.world, l1, st.computed⟩ (evs ++ [ev])) ∧
    (∀ (w : World) (fl : Nat) (t0 : Nat) (tr : List Nat),
      update_focus w fl (t0 :: tr) (t0 :: tr) = (w, t0)) := by
  constructor
  · intro hgate hcomp hres hev
    rw [listenLoopF, if_neg hgate, hcomp]
    simp only []
    rw [hres]
    cases ev with
    | FocusChanged a b => exact absurd rfl (hev a b)
    | NoChanges a b => rfl
    | Locked a => rfl
    | Unlocked a => rfl
  · intro w fl t0 tr
    simp [update_focus]

/-- Witness for `listen_no_mutation`: a dead-end `Action` on the
one-focusable world leaves everything unchanged and emits `NoChanges`. -/
theorem listen_no_mutation_witness :
    listenLoopF wSolo (fun _ _ _ _ => none) 1 [.Action] ⟨wSolo, none, some 1⟩ [] =
      listenLoopF wSolo (fun _ _ _ _ => none) 1 [] ⟨wSolo, none, some 1⟩
        [.NoChanges [1] .Action] :=
  (listen_no_mutation wSolo (fun _ _ _ _ => none) 1 ⟨wSolo, none, some 1⟩ .Action [] []
      1 (.NoChanges [1] .Action) none).1
    (by simp) rfl (by decide) (by intro a b h; cases h)

/-- C8: while `NavLock` holds a value, the driving loop skips every
request other than `Unlock` outright — the resolver is not invoked, no
`Focusable` state changes and no event is emitted — and processing
`Unlock` clears the lock without touching the world, after which the
remaining requests are resolved normally (the loop continues on the
unlocked state). -/
theorem listen_lock_gating (w0 : World)
    (stgy : Nat → Direction → Bool → List Nat → Option Nat) (fuel : Nat)
    (st : NavState) (r : LockReason) (rs1 rs2 : List NavRequest) (f : Nat)
    (evs : List NavEvent) :
    (st.lock = some r → (∀ q ∈ rs1, q ≠ .Unlock) →
      listenLoopF w0 stgy fuel (rs1 ++ rs2) st evs = listenLoopF w0 stgy fuel rs2 st evs) ∧
    (st.lock = some r → st.computed = some f →
      (lookupF st.world.focusables f).isSome → 0 < fuel →
      listenLoopF w0 stgy fuel (.Unlock :: rs2) st evs =
        listenLoopF w0 stgy fuel rs2 ⟨st.world, none, st.computed⟩ (evs ++ [.Unlocked r])) := by
  constructor
  · intro hlock hall
    induction rs1 with
    | nil => rfl
    | cons q qs ih =>
      have hq : q ≠ NavRequest.Unlock := hall q (List.mem_cons_self q qs)
      have hgate : st.lock.isSome ∧ q ≠ .Unlock := by
        constructor
        · rw [hlock]; rfl
        · exact hq
      rw [List.cons_append, listenLoopF, if_pos hgate]
      exact ih (fun x hx => hall x (List.mem_cons_of_mem q hx))
  · intro hlock hcomp hfoc hfuel
    obtain ⟨n, rfl⟩ : ∃ n, fuel = n + 1 := ⟨fuel - 1, by omega⟩
    obtain ⟨fo, hfo⟩ := Option.isSome_iff_exists.mp hfoc
    have hgate : ¬((st.lock.isSome ∧ NavRequest.Unlock ≠ NavRequest.Unlock)) := by
      simp
    rw [listenLoopF, if_neg hgate, hcomp]
    simp only []
    have hres : resolveF st.world stgy (n + 1) (n + 1) (n + 1) f .Unlock st.lock [] =
        .ok (.Unlocked r, none) := by
      rw [hlock]
      simp [resolveF, hfo]
    rw [hres]

/-- Witness for `listen_lock_gating`: on a locked one-focusable world,
a `Move` and an `Action` are skipped outright, and `Unlock` clears the
lock emitting `Unlocked`. -/
theorem listen_lock_gating_witness :
    listenLoopF wSolo (fun _ _ _ _ => none) 1 [.Move .North, .Action]
      ⟨wSolo, some .NavRequest, some 1⟩ [] =
      listenLoopF wSolo (fun _ _ _ _ => none) 1 [] ⟨wSolo, some .NavRequest, some 1⟩ [] ∧
    listenLoopF wSolo (fun _ _ _ _ => none) 1 [.Unlock]
      ⟨wSolo, some .NavRequest, some 1⟩ [] =
      listenLoopF wSolo (fun _ _ _ _ => none) 1 [] ⟨wSolo, none, some 1⟩
        [.Unlocked .NavRequest] :=
  ⟨(listen_lock_gating wSolo (fun _ _ _ _ => none) 1 ⟨wSolo, some .NavRequest, some 1⟩
      .NavRequest [.Move .North, .Action] [] 1 []).1 rfl (by decide),
   (listen_lock_gating wSolo (fun _ _ _ _ => none) 1 ⟨wSolo, some .NavRequest, some 1⟩
      .NavRequest [] [] 1 []).2 rfl rfl (by decide) (by decide)⟩

/-- The `FocusState` of an entity (`Focusable::state`). -/
def stateOf (w : World) (e : Nat) : Option FocusState :=
  (lookupF w.focusables e).map (fun f => f.state)

/-- The entity's `Focusable` is in state `Focused`. -/
def Foc (w : World) (e : Nat) : Prop := stateOf w e = some .Focused

/-- At most one node across the whole graph has `state == Focused`. -/
def atMostOneFocused (w : World) : Prop :=
  ∀ e1 e2, Foc w e1 → Foc w e2 → e1 = e2

theorem lookupF_set (l : List (Nat × Focusable)) (a : Nat) (s : FocusState)
    (e : Nat) :
    lookupF (l.map (fun p => if p.1 == a then (p.1, { p.2 with state := s }) else p)) e =
      if e = a then (lookupF l e).map (fun f => { f with state := s }) else lookupF l e := by
  induction l with
  | nil => by_cases h : e = a <;> simp [lookupF, h]
  | cons p ps ih =>
    obtain ⟨k, f⟩ := p
    by_cases hka : k = a
    · subst hka
      by_cases hek : e = k
      · subst hek
        simp [lookupF, List.find?_cons]
      · have hbek : (k == e) = false := by
          simp
          exact fun h => hek h.symm
        simp only [lookupF, List.map_cons, beq_self_eq_true, if_true, List.find?_cons,
          hbek, if_neg hek]
        have := ih
        simp only [lookupF, if_neg hek] at this
        exact this
    · have hbka : (k == a) = false := by
        simp
        exact hka
      by_cases hek : e = k
      · have hea : ¬e = a := by rw [hek]; exact hka
        have hbek : (k == e) = true := by simp [hek.symm]
        simp [lookupF, List.find?_cons, hbka, hka, hbek, hea]
      · have hbek : (k == e) = false := by
          simp
          exact fun h => hek h.symm
        simp only [lookupF, List.map_cons, hbka, Bool.false_eq_true, if_false,
          List.find?_cons, hbek]
        have := ih
        simp only [lookupF] at this
        exact this

theorem stateOf_set (w : World) (a : Nat) (s : FocusState) (e : Nat) :
    stateOf (set_entity_focus w a s) e =
      if e = a then (stateOf w a).map (fun _ => s) else stateOf w e := by
  have hset : stateOf (set_entity_focus w a s) e =
      (lookupF (w.focusables.map
        (fun p => if p.1 == a then (p.1, { p.2 with state := s }) else p)) e).map
        (fun f => f.state) := rfl
  rw [hset, lookupF_set]
  by_cases h : e = a
  · rw [if_pos h, if_pos h, h, stateOf]
    cases lookupF w.focusables a <;> simp
  · rw [if_neg h, if_neg h, stateOf]

theorem foc_set {w : World} {a : Nat} {s : FocusState} {e : Nat}
    (h : Foc (set_entity_focus w a s) e) : (e = a ∧ s = .Focused) ∨ (e ≠ a ∧ Foc w e) := by
  rw [Foc, stateOf_set] at h
  by_cases hea : e = a
  · rw [if_pos hea] at h
    simp at h
    exact Or.inl ⟨hea, h.2⟩
  · rw [if_neg hea] at h
    exact Or.inr ⟨hea, h⟩

theorem foc_setActiveChildF {w : World} {fuel : Nat} {node child e : Nat}
    (h : Foc (setActiveChildF w fuel node child) e) : Foc w e := by
  induction fuel generalizing w node with
  | zero => exact h
  | succ n ih =>
    rw [setActiveChildF] at h
    cases hp : lookupParent w node with
    | none => rw [hp] at h; exact h
    | some p =>
      rw [hp] at h
      simp only [] at h
      cases hm : lookupMenu w p with
      | none =>
        rw [hm] at h
        simp only [] at h
        exact ih h
      | some ms =>
        rw [hm] at h
        simp only [] at h
        rcases foc_set h with ⟨_, habs⟩ | ⟨_, hw⟩
        · exact absurd habs (by simp)
        · exact hw

theorem foc_set_active_child {w : World} {fuel : Nat} {child e : Nat}
    (h : Foc (set_active_child w fuel child) e) : Foc w e :=
  foc_setActiveChildF h

theorem foc_fold_prioritized {l : List Nat} {w : World} {e : Nat}
    (h : Foc (l.foldl (fun acc x => set_entity_focus acc x .Prioritized) w) e) :
    Foc w e ∧ e ∉ l := by
  induction l generalizing w with
  | nil => exact ⟨h, by simp⟩
  | cons x xs ih =>
    rw [List.foldl_cons] at h
    obtain ⟨hf, hnx⟩ := ih h
    rcases foc_set hf with ⟨_, habs⟩ | ⟨hne, hw⟩
    · exact absurd habs (by simp)
    · exact ⟨hw, by simp [hne, hnx]⟩

theorem foc_fold_active {l : List Nat} {w : World} {fuel : Nat} {e : Nat}
    (h : Foc (l.foldl
      (fun acc x => set_entity_focus (set_active_child acc fuel x) x .Active) w) e) :
    Foc w e := by
  induction l generalizing w with
  | nil => exact h
  | cons x xs ih =>
    rw [List.foldl_cons] at h
    have hf := ih h
    rcases foc_set hf with ⟨_, habs⟩ | ⟨_, hw⟩
    · exact absurd habs (by simp)
    · exact foc_set_active_child hw

theorem update_focus_unchanged (w : World) (fuel : Nat) (frm dest : List Nat)
    (h : dest = [] ∨ dest = frm) : (update_focus w fuel frm dest).1 = w := by
  rcases h with rfl | rfl
  · rfl
  · cases dest with
    | nil => rfl
    | cons t0 tr => simp [update_focus]

theorem update_focus_foc {w : World} {fuel : Nat} {frm : List Nat} {t0 : Nat}
    {tr : List Nat} {e : Nat}
    (hne : t0 :: tr ≠ frm)
    (h : Foc ((update_focus w fuel frm (t0 :: tr)).1) e) :
    e = t0 ∨ (Foc w e ∧ e ∉ frm) := by
  rw [update_focus] at h
  simp only [if_neg hne] at h
  have h5 := foc_fold_active h
  rcases foc_set h5 with ⟨he, _⟩ | ⟨hne0, h3⟩
  · exact Or.inl he
  · right
    have h2 := foc_set_active_child h3
    obtain ⟨h1, hnd⟩ := foc_fold_prioritized h2
    cases hlast : frm.getLast? with
    | none =>
      rw [hlast] at h1
      have : frm = [] := by
        cases frm with
        | nil => rfl
        | cons a as => simp [List.getLast?_eq_getLast] at hlast
      subst this
      exact ⟨h1, by simp⟩
    | some d =>
      rw [hlast] at h1
      rcases foc_set h1 with ⟨_, habs⟩ | ⟨hned, hw⟩
      · exact absurd habs (by simp)
      · refine ⟨hw, ?_⟩
        intro hmem
        have hfrm : frm ≠ [] := by rintro rfl; simp at hlast
        have : frm.dropLast ++ [frm.getLast hfrm] = frm := List.dropLast_append_getLast hfrm
        rw [← this] at hmem
        rcases List.mem_append.mp hmem with hh | hh
        · exact hnd hh
        · have : e = frm.getLast hfrm := by simpa using hh
          rw [List.getLast?_eq_getLast frm hfrm] at hlast
          have hd : d = frm.getLast hfrm := by
            have := hlast
            simp at this
            exact this.symm
          exact hned (by rw [this, ← hd])

theorem rootPathF_prefix {w : World} :
    ∀ (fuel : Nat) (e : Nat) (ret l : List Nat),
      rootPathF w fuel e ret = .ok l → ret <+: l := by
  intro fuel
  induction fuel with
  | zero => intro e ret l h; exact absurd h (by simp [rootPathF])
  | succ n ih =>
    intro e ret l h
    rw [rootPathF] at h
    cases hp : parent_menu w e with
    | panic s => rw [hp] at h; simp at h
    | diverge => rw [hp] at h; simp at h
    | ok o =>
      rw [hp] at h
      cases o with
      | none =>
        simp only [] at h
        simp at h
        rw [h]
      | some t =>
        simp only [] at h
        cases hfp : t.2.1.focus_parent with
        | none =>
          rw [hfp] at h
          simp at h
          rw [h]
        | some fp =>
          rw [hfp] at h
          simp only [] at h
          by_cases hmem : fp ∈ ret
          · rw [if_pos hmem] at h; simp at h
          · rw [if_neg hmem] at h
            exact (List.prefix_append ret [fp]).trans (ih fp (ret ++ [fp]) l h)

theorem root_path_head {w : World} {fuel : Nat} {e : Nat} {l : List Nat}
    (h : root_path w fuel e = .ok l) : ∃ t, l = e :: t := by
  obtain ⟨t, ht⟩ := rootPathF_prefix fuel e [e] l h
  exact ⟨t, ht.symm⟩

theorem trimRevAux_drop :
    ∀ (a1 a2 u v : List Nat), trimRevAux a1 a2 = some (u, v) →
      ∃ k, k < a1.length ∧ u = a1.drop k := by
  intro a1
  induction a1 with
  | nil => intro a2 u v h; cases a2 <;> simp [trimRevAux] at h
  | cons x xs ih =>
    intro a2 u v h
    cases a2 with
    | nil => simp [trimRevAux] at h
    | cons y ys =>
      rw [trimRevAux] at h
      by_cases hxy : x ≠ y
      · rw [if_pos hxy] at h
        simp at h
        exact ⟨0, by simp, h.1.symm⟩
      · rw [if_neg hxy] at h
        by_cases hemp : (xs.isEmpty || ys.isEmpty) = true
        · rw [if_pos hemp] at h; simp at h
        · rw [if_neg hemp] at h
          obtain ⟨k, hk, hu⟩ := ih ys u v h
          exact ⟨k + 1, by simp; omega, by simpa using hu⟩

theorem trim_head (e : Nat) (t l2 : List Nat) :
    ∃ t2, (trim_common_tail (e :: t) l2).1 = e :: t2 := by
  rw [trim_common_tail]
  cases htr : trimRevAux (e :: t).reverse l2.reverse with
  | none => exact ⟨t, rfl⟩
  | some p =>
    obtain ⟨k, hk, hu⟩ := trimRevAux_drop _ _ _ _ (by rw [htr])
    obtain ⟨m, hm⟩ : ∃ m, (e :: t).length - k = m + 1 := by
      refine ⟨t.length - k, ?_⟩
      simp at hk
      simp
      omega
    refine ⟨t.take m, ?_⟩
    simp only []
    rw [hu, rev_drop_rev, hm]
    rfl

theorem resolve_focusChanged_from (w : World)
    (stgy : Nat → Direction → Bool → List Nat → Option Nat) (df rf : Nat) :
    ∀ (fuel : Nat) (focused : Nat) (req : NavRequest) (lock : Option LockReason)
      (from0 dl fl : List Nat) (l' : Option LockReason),
      resolveF w stgy df rf fuel focused req lock from0 = .ok (.FocusChanged dl fl, l') →
      focused ∈ fl ∧ ∀ x ∈ from0, (∃ t, req = .FocusOn t) ∨ x ∈ fl := by
  intro fuel
  induction fuel with
  | zero =>
    intro focused req lock from0 dl fl l' h
    exact absurd h (by simp [resolveF])
  | succ n ih =>
    intro focused req lock from0 dl fl l' h
    rw [resolveF] at h
    by_cases h1 : (lookupF w.focusables focused).isNone
    · rw [if_pos h1] at h; simp at h
    · rw [if_neg h1] at h
      by_cases h2 : focused ∈ from0
      · rw [if_pos h2] at h; simp at h
      · rw [if_neg h2] at h
        simp only [] at h
        cases req with
        | Lock =>
          by_cases hl : lock.isSome
          · rw [if_pos hl] at h; simp at h
          · rw [if_neg hl] at h; simp at h
        | Unlock =>
          cases lock with
          | some r => simp at h
          | none => simp at h
        | Move d =>
          cases hp : parent_menu w focused with
          | panic s => rw [hp] at h; simp at h
          | diverge => rw [hp] at h; simp at h
          | ok o =>
            rw [hp] at h
            cases o with
            | some t =>
              simp only [] at h
              by_cases h2d : t.2.2.is_2d = true
              · rw [if_pos h2d] at h
                cases hf : focusables_of w t.1 with
                | panic s => rw [hf] at h; simp at h
                | diverge => rw [hf] at h; simp at h
                | ok siblings =>
                  rw [hf] at h
                  simp only [] at h
                  cases hst : stgy focused d (!t.2.2.bound) siblings with
                  | none => rw [hst] at h; simp at h
                  | some dest =>
                    rw [hst] at h
                    simp only [Res.ok.injEq, Prod.mk.injEq,
                      NavEvent.FocusChanged.injEq] at h
                    obtain ⟨⟨hdl, hfl⟩, hl⟩ := h
                    subst hfl
                    exact ⟨by simp, fun x hx => Or.inr (by simp [hx])⟩
              · rw [if_neg h2d] at h; simp at h
            | none =>
              simp only [] at h
              cases hst : stgy focused d true
                  ((w.focusables.filter (fun p => p.2.state != .Blocked)).map
                    (fun p => p.1)) with
              | none => rw [hst] at h; simp at h
              | some dest =>
                rw [hst] at h
                simp only [Res.ok.injEq, Prod.mk.injEq,
                  NavEvent.FocusChanged.injEq] at h
                obtain ⟨⟨hdl, hfl⟩, hl⟩ := h
                subst hfl
                exact ⟨by simp, fun x hx => Or.inr (by simp [hx])⟩
        | Cancel =>
          cases hp : parent_menu w focused with
          | panic s => rw [hp] at h; simp at h
          | diverge => rw [hp] at h; simp at h
          | ok o =>
            rw [hp] at h
            cases o with
            | none => simp at h
            | some t =>
              simp only [] at h
              cases hfp : t.2.1.focus_parent with
              | none => rw [hfp] at h; simp at h
              | some dest =>
                rw [hfp] at h
                simp only [Res.ok.injEq, Prod.mk.injEq,
                  NavEvent.FocusChanged.injEq] at h
                obtain ⟨⟨hdl, hfl⟩, hl⟩ := h
                subst hfl
                exact ⟨by simp, fun x hx => Or.inr (by simp [hx])⟩
        | Action =>
          cases ha : (lookupF w.focusables focused).map (fun f => f.action) with
          | none =>
            rw [ha] at h
            simp only [] at h
            cases hc : child_menu w focused with
            | none => rw [hc] at h; simp at h
            | some t =>
              rw [hc] at h
              simp only [Res.ok.injEq, Prod.mk.injEq,
                NavEvent.FocusChanged.injEq] at h
              obtain ⟨⟨hdl, hfl⟩, hl⟩ := h
              subst hfl
              exact ⟨by simp, fun x hx => Or.inr (by simp [hx])⟩
          | some act =>
            cases act with
            | Lock => rw [ha] at h; simp at h
            | Cancel =>
              rw [ha] at h
              simp only [] at h
              rw [List.dropLast_concat] at h
              obtain ⟨hmem, hall⟩ := ih focused .Cancel lock from0 dl fl l' h
              refine ⟨hmem, fun x hx => ?_⟩
              rcases hall x hx with ⟨t, ht⟩ | hin
              · exact absurd ht (by simp)
              · exact Or.inr hin
            | Normal =>
              rw [ha] at h
              simp only [] at h
              cases hc : child_menu w focused with
              | none => rw [hc] at h; simp at h
              | some t =>
                rw [hc] at h
                simp only [Res.ok.injEq, Prod.mk.injEq,
                  NavEvent.FocusChanged.injEq] at h
                obtain ⟨⟨hdl, hfl⟩, hl⟩ := h
                subst hfl
                exact ⟨by simp, fun x hx => Or.inr (by simp [hx])⟩
        | ScopeMove sd =>
          cases hp : parent_menu w focused with
          | panic s => rw [hp] at h; simp at h
          | diverge => rw [hp] at h; simp at h
          | ok o =>
            rw [hp] at h
            cases o with
            | none => simp at h
            | some t =>
              simp only [] at h
              cases hf : focusables_of w t.1 with
              | panic s => rw [hf] at h; simp at h
              | diverge => rw [hf] at h; simp at h
              | ok siblings =>
                rw [hf] at h
                simp only [] at h
                by_cases hsc : t.2.2.is_scope = true
                · rw [if_pos hsc] at h
                  cases hrs : resolve_scope focused sd (!t.2.2.bound) siblings with
                  | none => rw [hrs] at h; simp at h
                  | some dest =>
                    rw [hrs] at h
                    simp only [] at h
                    cases hc : child_menu w dest with
                    | some tm =>
                      rw [hc] at h
                      simp only [] at h
                      cases hfd : focusDeepF w df tm.2.1 [] with
                      | panic s => rw [hfd] at h; simp at h
                      | diverge => rw [hfd] at h; simp at h
                      | ok extra =>
                        rw [hfd] at h
                        simp only [Res.ok.injEq, Prod.mk.injEq,
                          NavEvent.FocusChanged.injEq] at h
                        obtain ⟨⟨hdl, hfl⟩, hl⟩ := h
                        subst hfl
                        exact ⟨by simp, fun x hx => Or.inr (by simp [hx])⟩
                    | none =>
                      rw [hc] at h
                      simp only [Res.ok.injEq, Prod.mk.injEq,
                        NavEvent.FocusChanged.injEq] at h
                      obtain ⟨⟨hdl, hfl⟩, hl⟩ := h
                      subst hfl
                      exact ⟨by simp, fun x hx => Or.inr (by simp [hx])⟩
                · rw [if_neg hsc] at h
                  cases hfp : t.2.1.focus_parent with
                  | none => rw [hfp] at h; simp at h
                  | some fp =>
                    rw [hfp] at h
                    simp only [] at h
                    obtain ⟨hmem, hall⟩ :=
                      ih fp (.ScopeMove sd) lock (from0 ++ [focused]) dl fl l' h
                    have hsub : ∀ x ∈ from0 ++ [focused], x ∈ fl := by
                      intro x hx
                      rcases hall x hx with ⟨t2, ht2⟩ | hin
                      · exact absurd ht2 (by simp)
                      · exact hin
                    refine ⟨hsub focused (by simp), fun x hx => Or.inr ?_⟩
                    exact hsub x (by simp [hx])
        | FocusOn tgt =>
          cases hr1 : root_path w rf focused with
          | panic s => rw [hr1] at h; simp at h
          | diverge => rw [hr1] at h; simp at h
          | ok f1 =>
            rw [hr1] at h
            simp only [] at h
            cases hr2 : root_path w rf tgt with
            | panic s => rw [hr2] at h; simp at h
            | diverge => rw [hr2] at h; simp at h
            | ok t1 =>
              rw [hr2] at h
              simp only [] at h
              by_cases heq : (trim_common_tail f1 t1).1 = (trim_common_tail f1 t1).2
              · rw [if_pos heq] at h; simp at h
              · rw [if_neg heq] at h
                simp only [Res.ok.injEq, Prod.mk.injEq,
                  NavEvent.FocusChanged.injEq] at h
                obtain ⟨⟨hdl, hfl⟩, hl⟩ := h
                obtain ⟨tt, htt⟩ := root_path_head hr1
                subst htt
                obtain ⟨t2, ht2⟩ := trim_head focused tt t1
                refine ⟨?_, fun x hx => Or.inl ⟨tgt, rfl⟩⟩
                rw [← hfl, ht2]
                simp

/-- C1: focus uniqueness.  If at most one `Focusable` is `Focused` and
the resolution starts from it (as `listen_nav_requests` does: the
resolver is always invoked on the picked focused entity with an empty
breadcrumb), then after the mutator applies the `FocusChanged` event of
any resolution (`update_focus` with the event's `from`/`to`
breadcrumbs), at most one node across the whole graph is `Focused`.
Lock resolutions never produce `FocusChanged`, so the hypothesis covers
exactly the non-Lock `FocusChanged` events. -/
theorem focus_uniqueness (w : World)
    (stgy : Nat → Direction → Bool → List Nat → Option Nat)
    (df rf fuel pfuel : Nat) (focused : Nat) (req : NavRequest)
    (lock l' : Option LockReason) (dl fl : List Nat)
    (hfoc : ∀ e, Foc w e → e = focused)
    (hres : resolveF w stgy df rf fuel focused req lock [] = .ok (.FocusChanged dl fl, l')) :
    atMostOneFocused (update_focus w pfuel fl dl).1 := by
  have hin : focused ∈ fl :=
    (resolve_focusChanged_from w stgy df rf fuel focused req lock [] dl fl l' hres).1
  have hnone : ∀ e, ¬(Foc w e ∧ e ∉ fl) := by
    rintro e ⟨hf2, hn⟩
    exact hn (by rw [hfoc e hf2]; exact hin)
  cases dl with
  | nil =>
    rw [update_focus_unchanged w pfuel fl [] (Or.inl rfl)]
    intro e1 e2 he1 he2
    rw [hfoc e1 he1, hfoc e2 he2]
  | cons t0 tr =>
    by_cases hdf : t0 :: tr = fl
    · rw [update_focus_unchanged w pfuel fl (t0 :: tr) (Or.inr hdf)]
      intro e1 e2 he1 he2
      rw [hfoc e1 he1, hfoc e2 he2]
    · intro e1 e2 he1 he2
      rcases update_focus_foc hdf he1 with rfl | hk1
      · rcases update_focus_foc hdf he2 with rfl | hk2
        · rfl
        · exact absurd hk2 (hnone e2)
      · exact absurd hk1 (hnone e1)

/-- Two-focusable world: entity 1 focused, entity 2 inert. -/
def wC1 : World :=
  { focusables := [(1, { state := .Focused, action := .Normal }),
                   (2, { state := .Inert, action := .Normal })],
    menus := [], parents := [], children := [] }

/-- Witness for `focus_uniqueness`: applying the `FocusChanged` produced
by `FocusOn 2` on `wC1` keeps at most one node focused. -/
theorem focus_uniqueness_witness :
    atMostOneFocused (update_focus wC1 3 [1] [2]).1 := by
  apply focus_uniqueness wC1 (fun _ _ _ _ => none) 3 3 3 3 1 (.FocusOn 2) none none [2] [1]
  · intro e he
    by_cases h1 : e = 1
    · exact h1
    · exfalso
      have h1' : ¬(1 = e) := fun hh => h1 hh.symm
      have b1 : (1 == e) = false := beq_eq_false_iff_ne.mpr h1'
      by_cases h2 : e = 2
      · have b2 : (2 == e) = true := beq_iff_eq.mpr h2.symm
        rw [Foc, stateOf, lookupF, wC1] at he
        simp [List.find?, b1, b2] at he
      · have h2' : ¬(2 = e) := fun hh => h2 hh.symm
        have b2 : (2 == e) = false := beq_eq_false_iff_ne.mpr h2'
        rw [Foc, stateOf, lookupF, wC1] at he
        simp [List.find?, b1, b2] at he
  · decide

/-- Well-formedness of the bevy hierarchy lists: parent ids are smaller
than child ids (the hierarchy is a forest, numbered topologically). -/
def wfParents (w : World) : Bool :=
  w.parents.all (fun p => decide (p.2 < p.1))

/-- Children ids are larger than their container id. -/
def wfChildren (w : World) : Bool :=
  w.children.all (fun c => c.2.all (fun x => decide (c.1 < x)))

/-- Every declared `focus_parent` is a `Focusable` (the graph was built
through `insert_tree_menus` from focusables). -/
def wfMenus (w : World) : Bool :=
  w.menus.all (fun t =>
    match t.2.1.focus_parent with
    | some fp => (lookupF w.focusables fp).isSome
    | none => true)

/-- Structural well-formedness of the world. -/
def wfB (w : World) : Bool := wfParents w && wfChildren w && wfMenus w

/-- One step up the `focus_parent` links: the `focus_parent` of the menu
enclosing `e` (the step iterated by `root_path` and the `ScopeMove`
bubbling). -/
def ascend (w : World) (e : Nat) : Option Nat :=
  match parent_menu w e with
  | .ok (some t) => t.2.1.focus_parent
  | _ => none

/-- Iterated ascent: the breadcrumb chain above `e`. -/
def ascIter (w : World) : Nat → Nat → Option Nat
  | 0, e => some e
  | n + 1, e =>
    match ascend w e with
    | some e2 => ascIter w n e2
    | none => none

/-- One step down the menu tree through `active_child`/`child_menu`
(the step iterated by `focus_deep`). -/
def descStep (w : World) (m : TreeMenu) : Option TreeMenu :=
  (child_menu w m.active_child).map (fun t => t.2.1)

/-- Iterated descent. -/
def descIter (w : World) : Nat → Option TreeMenu → Option TreeMenu
  | 0, om => om
  | n + 1, om =>
    match om with
    | some m => descIter w n (descStep w m)
    | none => none

theorem lookupParent_lt {w : World} (hwf : wfParents w = true) {e p : Nat}
    (h : lookupParent w e = some p) : p < e := by
  rw [lookupParent] at h
  obtain ⟨pr, hpr, hp2⟩ := Option.map_eq_some'.mp h
  have hmem := List.mem_of_find?_eq_some hpr
  have hpred := List.find?_some hpr
  have hkey : pr.1 = e := by simpa using hpred
  have hall := List.all_eq_true.mp hwf pr hmem
  have h2 : pr.2 < pr.1 := by simpa using hall
  rw [← hp2, ← hkey]
  exact h2

theorem parentMenuF_ok {w : World} (hwf : wfParents w = true) :
    ∀ (fuel e : Nat), e < fuel → ∃ r, parentMenuF w fuel e = .ok r := by
  intro fuel
  induction fuel with
  | zero => intro e he; omega
  | succ m ih =>
    intro e he
    rw [parentMenuF]
    cases hp : lookupParent w e with
    | none => simp only [hp]; exact ⟨none, rfl⟩
    | some p =>
      simp only [hp]
      cases hm : lookupMenu w p with
      | some ms => simp only [hm]; exact ⟨some (p, ms.1, ms.2), rfl⟩
      | none =>
        simp only [hm]
        have hpe : p < e := lookupParent_lt hwf hp
        have hpm : p < m := Nat.lt_of_lt_of_le hpe (Nat.le_of_lt_succ he)
        exact ih p hpm

theorem parent_menu_ok {w : World} (hwf : wfParents w = true) (e : Nat) :
    ∃ r, parent_menu w e = .ok r :=
  parentMenuF_ok hwf (e + 1) e (by omega)

theorem parentMenuF_mem {w : World} :
    ∀ (fuel e : Nat) (t : Nat × TreeMenu × MenuSetting),
      parentMenuF w fuel e = .ok (some t) → t ∈ w.menus := by
  intro fuel
  induction fuel with
  | zero => intro e t h; simp [parentMenuF] at h
  | succ m ih =>
    intro e t h
    rw [parentMenuF] at h
    cases hp : lookupParent w e with
    | none => simp only [hp] at h; simp at h
    | some p =>
      simp only [hp] at h
      cases hm : lookupMenu w p with
      | none => simp only [hm] at h; exact ih p t h
      | some ms =>
        simp only [hm] at h
        simp at h
        rw [lookupMenu] at hm
        obtain ⟨pr, hpr, hms⟩ := Option.map_eq_some'.mp hm
        have hmem := List.mem_of_find?_eq_some hpr
        have hkey : pr.1 = p := by simpa using List.find?_some hpr
        have : t = pr := by
          rw [← h, ← hkey, ← hms]
        rw [this]
        exact hmem

theorem parent_menu_mem {w : World} {e : Nat} {t : Nat × TreeMenu × MenuSetting}
    (h : parent_menu w e = .ok (some t)) : t ∈ w.menus :=
  parentMenuF_mem (e + 1) e t h

theorem le_foldl_max (l : List Nat) (a : Nat) : a ≤ l.foldl max a := by
  induction l generalizing a with
  | nil => exact le_refl a
  | cons x xs ih => exact le_trans (le_max_left a x) (ih (max a x))

theorem mem_le_foldl_max (l : List Nat) (a : Nat) : ∀ x ∈ l, x ≤ l.foldl max a := by
  induction l generalizing a with
  | nil => simp
  | cons y ys ih =>
    intro x hx
    rcases List.mem_cons.mp hx with rfl | hx2
    · exact le_trans (le_max_right a x) (le_foldl_max ys (max a x))
    · exact ih (max a y) x hx2

theorem lookupChildren_mem {w : World} {e : Nat} {cs : List Nat}
    (h : lookupChildren w e = some cs) : (e, cs) ∈ w.children := by
  rw [lookupChildren] at h
  obtain ⟨pr, hpr, hp2⟩ := Option.map_eq_some'.mp h
  have hmem := List.mem_of_find?_eq_some hpr
  have hkey : pr.1 = e := by simpa using List.find?_some hpr
  have : (e, cs) = pr := by rw [← hkey, ← hp2]
  rw [this]
  exact hmem

theorem childkey_lt_ebound {w : World} {e : Nat} {cs : List Nat}
    (h : (e, cs) ∈ w.children) : e < ebound w := by
  have h1 : e ∈ (w.children.map (fun c => c.1)) ++ (w.children.map (fun c => c.2)).flatten := by
    apply List.mem_append_left
    exact List.mem_map.mpr ⟨(e, cs), h, rfl⟩
  have h2 : (e : Nat) ≤ _ := mem_le_foldl_max _ 0 e h1
  rw [ebound, Nat.add_comm 1]
  exact Nat.lt_succ_of_le h2

theorem childval_lt_ebound {w : World} {e : Nat} {cs : List Nat} {x : Nat}
    (h : (e, cs) ∈ w.children) (hx : x ∈ cs) : x < ebound w := by
  have h1 : x ∈ (w.children.map (fun c => c.1)) ++ (w.children.map (fun c => c.2)).flatten := by
    apply List.mem_append_right
    exact List.mem_flatten.mpr ⟨cs, List.mem_map.mpr ⟨(e, cs), h, rfl⟩, hx⟩
  have h2 : (x : Nat) ≤ _ := mem_le_foldl_max _ 0 x h1
  rw [ebound, Nat.add_comm 1]
  exact Nat.lt_succ_of_le h2

theorem resFlatMap_ok {f : Nat → Res (List Nat)} :
    ∀ l : List Nat, (∀ x ∈ l, ∃ r, f x = .ok r) → ∃ r, resFlatMap f l = .ok r := by
  intro l
  induction l with
  | nil => intro _; exact ⟨[], rfl⟩
  | cons x xs ih =>
    intro hall
    obtain ⟨r1, hr1⟩ := hall x (by simp)
    obtain ⟨r2, hr2⟩ := ih (fun y hy => hall y (by simp [hy]))
    rw [resFlatMap, hr1, hr2]
    exact ⟨r1 ++ r2, rfl⟩

theorem focusablesOfF_ok {w : World} (hwfc : wfChildren w = true) :
    ∀ (fuel e : Nat), 1 ≤ fuel → ebound w ≤ fuel + e →
      ∃ l, focusablesOfF w fuel e = .ok l := by
  intro fuel
  induction fuel with
  | zero => intro e h1 _; omega
  | succ m ih =>
    intro e h1 h2
    rw [focusablesOfF]
    cases hc : lookupChildren w e with
    | none => simp only [hc]; exact ⟨[], rfl⟩
    | some direct =>
      simp only [hc]
      have hmem := lookupChildren_mem hc
      have hke : e < ebound w := childkey_lt_ebound hmem
      have hrec : ∀ c ∈ direct.filter (fun x =>
          (lookupF w.focusables x).isNone && (lookupMenu w x).isNone),
          ∃ r, focusablesOfF w m c = .ok r := by
        intro c hcm
        have hcd : c ∈ direct := List.mem_of_mem_filter hcm
        have hlt : (e : Nat) < c := by
          have := List.all_eq_true.mp (List.all_eq_true.mp hwfc (e, direct) hmem) c hcd
          simpa using this
        have hcb : (c : Nat) < ebound w := childval_lt_ebound hmem hcd
        have he2 : ebound w ≤ m + 1 + e := h2
        exact ih c (by omega) (by omega)
      obtain ⟨r, hr⟩ := resFlatMap_ok _ hrec
      rw [hr]
      exact ⟨_, rfl⟩

theorem focusables_of_ok {w : World} (hwfc : wfChildren w = true) (e : Nat) :
    ∃ l, focusables_of w e = .ok l := by
  rw [focusables_of]
  apply focusablesOfF_ok hwfc
  · rw [ebound]; omega
  · omega

theorem ascIter_shift {w : World} {e e2 : Nat} (h : ascend w e = some e2) (n : Nat) :
    ascIter w (n + 1) e = ascIter w n e2 := by
  rw [ascIter, h]

theorem ascIter_none_shift {w : World} {e : Nat} (h : ascend w e = none) (n : Nat) :
    ascIter w (n + 1) e = none := by
  rw [ascIter, h]

theorem ascIter_none_mono {w : World} {n : Nat} {e : Nat}
    (h : ascIter w n e = none) : ∀ m, n ≤ m → ascIter w m e = none := by
  intro m hm
  induction m generalizing n e with
  | zero =>
    have : n = 0 := Nat.le_zero.mp hm
    rw [this] at h
    exact h
  | succ k ih =>
    cases n with
    | zero => simp [ascIter] at h
    | succ n' =>
      rw [ascIter] at h ⊢
      cases ha : ascend w e with
      | none => rfl
      | some e2 =>
        rw [ha] at h
        exact ih h (Nat.le_of_succ_le_succ hm)

theorem ascIter_add {w : World} :
    ∀ (i : Nat) (e x : Nat), ascIter w i e = some x →
      ∀ j, ascIter w (i + j) e = ascIter w j x := by
  intro i
  induction i with
  | zero =>
    intro e x h j
    have : e = x := by simpa [ascIter] using h
    rw [Nat.zero_add, this]
  | succ n ih =>
    intro e x h j
    rw [ascIter] at h
    cases ha : ascend w e with
    | none => rw [ha] at h; exact absurd h (by simp)
    | some e2 =>
      rw [ha] at h
      have h2 := ih e2 x h j
      have hshape : n + 1 + j = (n + j) + 1 := by omega
      rw [hshape, ascIter_shift ha (n + j)]
      exact h2

theorem asc_no_return {w : World} {n : Nat} {e : Nat}
    (hterm : ascIter w n e = none) : ∀ k, 1 ≤ k → ascIter w k e ≠ some e := by
  intro k hk hsome
  have hper : ∀ m, ascIter w (m * k) e = some e := by
    intro m
    induction m with
    | zero => simp [ascIter]
    | succ m2 ih =>
      have : (m2 + 1) * k = m2 * k + k := by ring
      rw [this, ascIter_add (m2 * k) e e ih k]
      exact hsome
  have h1 := hper n
  have h2 := ascIter_none_mono hterm (n * k) (Nat.le_mul_of_pos_right n hk)
  rw [h2] at h1
  exact Option.noConfusion h1

theorem focusDeep_ok {w : World} :
    ∀ (k : Nat) (m : TreeMenu) (acc : List Nat) (fl : Nat),
      descIter w k (some m) = none → k ≤ fl →
      ∃ l, focusDeepF w fl m acc = .ok l := by
  intro k
  induction k with
  | zero => intro m acc fl h _; simp [descIter] at h
  | succ k2 ih =>
    intro m acc fl h hfl
    rw [descIter] at h
    obtain ⟨fl2, rfl⟩ : ∃ fl2, fl = fl2 + 1 := ⟨fl - 1, by omega⟩
    rw [focusDeepF]
    cases hc : child_menu w m.active_child with
    | none => simp only [hc]; exact ⟨_, rfl⟩
    | some t =>
      simp only [hc]
      have hstep : descStep w m = some t.2.1 := by rw [descStep, hc]; rfl
      rw [hstep] at h
      exact ih t.2.1 (m.active_child :: acc) fl2 h (by omega)

theorem rootPath_ok_aux {w : World} (hwfp : wfParents w = true) :
    ∀ (fuel e : Nat) (ret : List Nat) (n : Nat),
      ascIter w n e = none →
      (∀ x ∈ ret, ∀ k, 1 ≤ k → ascIter w k e ≠ some x) →
      n + 1 ≤ fuel →
      ∃ l, rootPathF w fuel e ret = .ok l := by
  intro fuel
  induction fuel with
  | zero => intro e ret n _ _ h; omega
  | succ m ih =>
    intro e ret n hterm hdis hfl
    rw [rootPathF]
    obtain ⟨r, hr⟩ := parent_menu_ok hwfp e
    rw [hr]
    cases r with
    | none => exact ⟨ret, rfl⟩
    | some t =>
      simp only []
      cases hfp : t.2.1.focus_parent with
      | none => exact ⟨ret, rfl⟩
      | some fp =>
        have hasc : ascend w e = some fp := by
          rw [ascend, hr]
          simp only []
          exact hfp
        have h1 : ascIter w 1 e = some fp := by
          rw [ascIter_shift hasc 0]
          rfl
        have hnin : fp ∉ ret := fun hin => hdis fp hin 1 (le_refl 1) h1
        simp only [hfp]
        rw [if_neg hnin]
        obtain ⟨n2, rfl⟩ : ∃ n2, n = n2 + 1 := by
          cases n with
          | zero => simp [ascIter] at hterm
          | succ k => exact ⟨k, rfl⟩
        have hterm2 : ascIter w n2 fp = none := by
          rw [← ascIter_shift hasc n2]
          exact hterm
        refine ih fp (ret ++ [fp]) n2 hterm2 ?_ (by omega)
        intro x hx k hk
        rcases List.mem_append.mp hx with hx1 | hx2
        · have hh := hdis x hx1 (k + 1) (by omega)
          rw [ascIter_shift hasc k] at hh
          exact hh
        · have hxfp : x = fp := by simpa using hx2
          rw [hxfp]
          exact asc_no_return hterm2 k hk

theorem rootPath_panic_aux {w : World} :
    ∀ (k fuel e : Nat) (ret : List Nat) (x : Nat),
      1 ≤ k → k ≤ fuel → ascIter w k e = some x →
      (x ∈ ret ∨ ∃ i, 1 ≤ i ∧ i < k ∧ ascIter w i e = some x) →
      ∃ msg, rootPathF w fuel e ret = .panic msg := by
  intro k
  induction k with
  | zero => intro fuel e ret x h _ _ _; omega
  | succ k2 ih =>
    intro fuel e ret x hk hkf hsome hdisj
    cases ha : ascend w e with
    | none =>
      rw [ascIter, ha] at hsome
      exact absurd hsome (by simp)
    | some fp =>
      obtain ⟨m, rfl⟩ : ∃ m, fuel = m + 1 := ⟨fuel - 1, by omega⟩
      rw [rootPathF]
      cases hr : parent_menu w e with
      | panic s => rw [ascend, hr] at ha; exact absurd ha (by simp)
      | diverge => rw [ascend, hr] at ha; exact absurd ha (by simp)
      | ok o =>
        cases o with
        | none => rw [ascend, hr] at ha; exact absurd ha (by simp)
        | some t =>
          have hfp : t.2.1.focus_parent = some fp := by
            have h2 := ha
            rw [ascend, hr] at h2
            exact h2
          simp only []
          simp only [hfp]
          by_cases hmem : fp ∈ ret
          · rw [if_pos hmem]
            exact ⟨cycleMsg, rfl⟩
          · rw [if_neg hmem]
            have hs2 : ascIter w k2 fp = some x := by
              rw [← ascIter_shift ha k2]
              exact hsome
            rcases hdisj with hxret | ⟨i, hi1, hik, hix⟩
            · cases k2 with
              | zero =>
                have hfx : fp = x := by simpa [ascIter] using hs2
                exact absurd (hfx ▸ hxret) hmem
              | succ k3 =>
                exact ih m fp (ret ++ [fp]) x (by omega) (by omega) hs2
                  (Or.inl (List.mem_append_left _ hxret))
            · obtain ⟨i2, rfl⟩ : ∃ i2, i = i2 + 1 := ⟨i - 1, by omega⟩
              have hix2 : ascIter w i2 fp = some x := by
                rw [← ascIter_shift ha i2]
                exact hix
              cases i2 with
              | zero =>
                have hfx : fp = x := by simpa [ascIter] using hix2
                refine ih m fp (ret ++ [fp]) x (by omega) (by omega) hs2 ?_
                exact Or.inl (by rw [← hfx]; simp)
              | succ i3 =>
                refine ih m fp (ret ++ [fp]) x (by omega) (by omega) hs2 ?_
                exact Or.inr ⟨i3 + 1, by omega, by omega, hix2⟩

theorem resolve_cancel_ok {w : World} (hwfp : wfParents w = true)
    (stgy : Nat → Direction → Bool → List Nat → Option Nat) (df rf : Nat)
    {focused : Nat} {lock : Option LockReason} {f0 : List Nat}
    (hfoc : (lookupF w.focusables focused).isSome) (hnin : focused ∉ f0) :
    ∀ fuel, 1 ≤ fuel →
      ∃ ev l2, resolveF w stgy df rf fuel focused .Cancel lock f0 = .ok (ev, l2) := by
  intro fuel h1
  obtain ⟨m, rfl⟩ : ∃ m, fuel = m + 1 := ⟨fuel - 1, by omega⟩
  rw [resolveF]
  obtain ⟨fv, hfv⟩ := Option.isSome_iff_exists.mp hfoc
  simp only [hfv, Option.isNone_some, Bool.false_eq_true, if_false]
  rw [if_neg hnin]
  obtain ⟨r, hr⟩ := parent_menu_ok hwfp focused
  rw [hr]
  cases r with
  | none => exact ⟨_, _, rfl⟩
  | some t =>
    simp only []
    cases hfp : t.2.1.focus_parent with
    | none => simp only [hfp]; exact ⟨_, _, rfl⟩
    | some dest => simp only [hfp]; exact ⟨_, _, rfl⟩

theorem resolve_ok_aux {w : World} (hwf : wfB w = true)
    (stgy : Nat → Direction → Bool → List Nat → Option Nat) (df rf : Nat) :
    ∀ (fuel n focused : Nat) (req : NavRequest) (lock : Option LockReason)
      (from0 : List Nat),
      (lookupF w.focusables focused).isSome →
      ascIter w n focused = none →
      (∀ x ∈ from0, ∀ k, ascIter w k focused ≠ some x) →
      (∀ t, req = .FocusOn t → ∃ m2, ascIter w m2 t = none ∧ m2 + 1 ≤ rf) →
      n + 1 ≤ rf →
      n + 2 ≤ fuel →
      (∀ y ∈ w.menus, ∃ k, descIter w k (some y.2.1) = none ∧ k + 1 ≤ df) →
      ∃ ev l2, resolveF w stgy df rf fuel focused req lock from0 = .ok (ev, l2) := by
  have hsplit : wfParents w = true ∧ wfChildren w = true ∧ wfMenus w = true := by
    simpa [wfB, Bool.and_eq_true, and_assoc] using hwf
  intro fuel
  induction fuel with
  | zero =>
    intro n focused req lock from0 _ _ _ _ _ hfl _
    omega
  | succ m ih =>
    intro n focused req lock from0 hfoc hterm hdis hfo hrf hfl hdesc
    rw [resolveF]
    obtain ⟨fv, hfv⟩ := Option.isSome_iff_exists.mp hfoc
    simp only [hfv, Option.isNone_some, Bool.false_eq_true, if_false]
    have hnin : focused ∉ from0 := fun hin => hdis focused hin 0 rfl
    rw [if_neg hnin]
    cases req with
    | Lock =>
      by_cases hl : lock.isSome
      · rw [if_pos hl]; exact ⟨_, _, rfl⟩
      · rw [if_neg hl]; exact ⟨_, _, rfl⟩
    | Unlock =>
      cases lock with
      | some r => exact ⟨_, _, rfl⟩
      | none => exact ⟨_, _, rfl⟩
    | Move d =>
      obtain ⟨r, hr⟩ := parent_menu_ok hsplit.1 focused
      rw [hr]
      cases r with
      | none =>
        simp only []
        cases hst : stgy focused d true
            ((w.focusables.filter (fun p => p.2.state != .Blocked)).map (fun p => p.1)) with
        | some dest => simp only [hst]; exact ⟨_, _, rfl⟩
        | none => simp only [hst]; exact ⟨_, _, rfl⟩
      | some t =>
        simp only []
        by_cases h2d : t.2.2.is_2d = true
        · rw [if_pos h2d]
          obtain ⟨sib, hsib⟩ := focusables_of_ok hsplit.2.1 t.1
          rw [hsib]
          simp only []
          cases hst : stgy focused d (!t.2.2.bound) sib with
          | some dest => simp only [hst]; exact ⟨_, _, rfl⟩
          | none => simp only [hst]; exact ⟨_, _, rfl⟩
        · rw [if_neg h2d]; exact ⟨_, _, rfl⟩
    | Cancel =>
      obtain ⟨r, hr⟩ := parent_menu_ok hsplit.1 focused
      rw [hr]
      cases r with
      | none => exact ⟨_, _, rfl⟩
      | some t =>
        simp only []
        cases hfp : t.2.1.focus_parent with
        | none => simp only [hfp]; exact ⟨_, _, rfl⟩
        | some dest => simp only [hfp]; exact ⟨_, _, rfl⟩
    | Action =>
      simp only [hfv, Option.map_some']
      cases hact : fv.action with
      | Lock => exact ⟨_, _, rfl⟩
      | Cancel =>
        rw [List.dropLast_concat]
        exact resolve_cancel_ok hsplit.1 stgy df rf hfoc hnin m (by omega)
      | Normal =>
        cases hc : child_menu w focused with
        | none => simp only [hc]; exact ⟨_, _, rfl⟩
        | some t => simp only [hc]; exact ⟨_, _, rfl⟩
    | ScopeMove sd =>
      obtain ⟨r, hr⟩ := parent_menu_ok hsplit.1 focused
      rw [hr]
      cases r with
      | none => exact ⟨_, _, rfl⟩
      | some t =>
        simp only []
        obtain ⟨sib, hsib⟩ := focusables_of_ok hsplit.2.1 t.1
        rw [hsib]
        simp only []
        by_cases hsc : t.2.2.is_scope = true
        · rw [if_pos hsc]
          cases hrs : resolve_scope focused sd (!t.2.2.bound) sib with
          | none => simp only [hrs]; exact ⟨_, _, rfl⟩
          | some dest =>
            simp only [hrs]
            cases hc : child_menu w dest with
            | none => simp only [hc]; exact ⟨_, _, rfl⟩
            | some tm =>
              simp only [hc]
              have hmem : tm ∈ w.menus := List.mem_of_find?_eq_some hc
              obtain ⟨k, hk, hkd⟩ := hdesc tm hmem
              obtain ⟨l, hl⟩ := focusDeep_ok k tm.2.1 [] df hk (by omega)
              rw [hl]
              exact ⟨_, _, rfl⟩
        · rw [if_neg hsc]
          cases hfp : t.2.1.focus_parent with
          | none => simp only [hfp]; exact ⟨_, _, rfl⟩
          | some fp =>
            simp only [hfp]
            have hasc : ascend w focused = some fp := by
              rw [ascend, hr]
              simp only []
              exact hfp
            obtain ⟨n2, rfl⟩ : ∃ n2, n = n2 + 1 := by
              cases n with
              | zero => simp [ascIter] at hterm
              | succ k2 => exact ⟨k2, rfl⟩
            have hterm2 : ascIter w n2 fp = none := by
              rw [← ascIter_shift hasc n2]
              exact hterm
            have hfoc2 : (lookupF w.focusables fp).isSome := by
              have hmem : t ∈ w.menus := parent_menu_mem hr
              have hall := List.all_eq_true.mp hsplit.2.2 t hmem
              rw [hfp] at hall
              exact hall
            have hdis2 : ∀ x ∈ from0 ++ [focused], ∀ k, ascIter w k fp ≠ some x := by
              intro x hx k
              rw [← ascIter_shift hasc k]
              rcases List.mem_append.mp hx with hx1 | hx2
              · exact hdis x hx1 (k + 1)
              · have hxf : x = focused := by simpa using hx2
                rw [hxf]
                exact asc_no_return hterm (k + 1) (by omega)
            have hfo2 : ∀ t2, NavRequest.ScopeMove sd = .FocusOn t2 →
                ∃ m2, ascIter w m2 t2 = none ∧ m2 + 1 ≤ rf := by
              intro t2 ht2
              exact absurd ht2 (by simp)
            exact ih n2 fp (.ScopeMove sd) lock (from0 ++ [focused]) hfoc2 hterm2 hdis2
              hfo2 (by omega) (by omega) hdesc
    | FocusOn tgt =>
      have hdis1 : ∀ x ∈ [focused], ∀ k, 1 ≤ k → ascIter w k focused ≠ some x := by
        intro x hx k hk
        have hxf : x = focused := by simpa using hx
        rw [hxf]
        exact asc_no_return hterm k hk
      obtain ⟨l1, hl1⟩ := rootPath_ok_aux hsplit.1 rf focused [focused] n hterm hdis1 hrf
      have hl1b : root_path w rf focused = .ok l1 := hl1
      rw [hl1b]
      simp only []
      obtain ⟨m2, hm2, hm2rf⟩ := hfo tgt rfl
      have hdis2 : ∀ x ∈ [tgt], ∀ k, 1 ≤ k → ascIter w k tgt ≠ some x := by
        intro x hx k hk
        have hxf : x = tgt := by simpa using hx
        rw [hxf]
        exact asc_no_return hm2 k hk
      obtain ⟨l2, hl2⟩ := rootPath_ok_aux hsplit.1 rf tgt [tgt] m2 hm2 hdis2 hm2rf
      have hl2b : root_path w rf tgt = .ok l2 := hl2
      rw [hl2b]
      simp only []
      by_cases he : (trim_common_tail l1 l2).1 = (trim_common_tail l1 l2).2
      · rw [if_pos he]; exact ⟨_, _, rfl⟩
      · rw [if_neg he]; exact ⟨_, _, rfl⟩

/-- C2: (a) on well-formed input — `focused` is a `Focusable`, the
`focus_parent` ascent from every involved node terminates (acyclicity),
the menu descent terminates, and enough fuel is provided — `resolve`
returns a `NavEvent` without panicking; (b) if ascending the
`focus_parent` links revisits a node (a cycle), `root_path` hits the
cycle-detection assertion and panics, and so does `resolve` of a
`FocusOn` request, instead of looping. -/
theorem resolve_safety (w : World)
    (stgy : Nat → Direction → Bool → List Nat → Option Nat)
    (df rf fuel n i j focused x tgt : Nat) (req : NavRequest)
    (lock : Option LockReason) :
    (wfB w = true → (lookupF w.focusables focused).isSome →
      ascIter w n focused = none →
      (∀ t, req = .FocusOn t → ∃ m2, ascIter w m2 t = none ∧ m2 + 1 ≤ rf) →
      n + 1 ≤ rf → n + 2 ≤ fuel →
      (∀ y ∈ w.menus, ∃ k, descIter w k (some y.2.1) = none ∧ k + 1 ≤ df) →
      ∃ ev l2, resolveF w stgy df rf fuel focused req lock [] = .ok (ev, l2)) ∧
    (i < j → j ≤ rf →
      ascIter w i focused = some x → ascIter w j focused = some x →
      (lookupF w.focusables focused).isSome → 1 ≤ fuel →
      (∃ msg, root_path w rf focused = .panic msg) ∧
      (∃ msg, resolveF w stgy df rf fuel focused (.FocusOn tgt) lock [] = .panic msg)) := by
  constructor
  · intro hwf hfoc hterm hfo hrf hfl hdesc
    exact resolve_ok_aux hwf stgy df rf fuel n focused req lock [] hfoc hterm
      (by intro y hy; exact absurd hy (List.not_mem_nil y)) hfo hrf hfl hdesc
  · intro hij hjrf hi hj hfoc hfl
    have hdisj : x ∈ [focused] ∨ ∃ i2, 1 ≤ i2 ∧ i2 < j ∧ ascIter w i2 focused = some x := by
      cases i with
      | zero =>
        left
        have : focused = x := by simpa [ascIter] using hi
        simp [this]
      | succ i2 => exact Or.inr ⟨i2 + 1, by omega, hij, hi⟩
    obtain ⟨msg, hmsg⟩ :=
      rootPath_panic_aux j rf focused [focused] x (by omega) hjrf hj hdisj
    have hmsgb : root_path w rf focused = .panic msg := hmsg
    refine ⟨⟨msg, hmsgb⟩, ⟨msg, ?_⟩⟩
    obtain ⟨m, rfl⟩ : ∃ m, fuel = m + 1 := ⟨fuel - 1, by omega⟩
    rw [resolveF]
    obtain ⟨fv, hfv⟩ := Option.isSome_iff_exists.mp hfoc
    simp only [hfv, Option.isNone_some, Bool.false_eq_true, if_false]
    rw [if_neg (List.not_mem_nil focused)]
    rw [hmsgb]

/-- Cyclic configuration: menus 1 and 2 whose `focus_parent`s are
focusables inside each other (the spec's cycle-detection scenario). -/
def wCyc : World :=
  { focusables := [(11, { state := .Focused, action := .Normal }),
                   (12, { state := .Inert, action := .Normal })],
    menus := [(1, { focus_parent := some 12, active_child := 11 },
                { scope := false, wrapping := false }),
              (2, { focus_parent := some 11, active_child := 12 },
                { scope := false, wrapping := false })],
    parents := [(11, 1), (12, 2)],
    children := [] }

/-- Witness for `resolve_safety`: a well-formed one-focusable world
resolves `Cancel` without panic, and the two-menu cycle panics in
`root_path`. -/
theorem resolve_safety_witness :
    (∃ ev l2, resolveF wSolo (fun _ _ _ _ => none) 0 2 3 1 .Cancel none [] = .ok (ev, l2)) ∧
    (∃ msg, root_path wCyc 2 11 = .panic msg) := by
  constructor
  · exact (resolve_safety wSolo (fun _ _ _ _ => none) 0 2 3 1 0 0 1 0 0 .Cancel none).1
      (by decide) (by decide) (by decide) (by intro t ht; simp at ht) (by omega) (by omega)
      (by intro y hy; exact absurd hy (List.not_mem_nil y))
  · exact ((resolve_safety wCyc (fun _ _ _ _ => none) 0 2 1 0 0 2 11 11 12
      (.FocusOn 12) none).2
      (by omega) (by omega) (by decide) (by decide) (by decide) (by omega)).1

theorem lookupF_mem_eq {l : List (Nat × Focusable)}
    (hnodup : (l.map (fun p => p.1)).Nodup) {p : Nat × Focusable} (hmem : p ∈ l) :
    lookupF l p.1 = some p.2 := by
  induction l with
  | nil => simp at hmem
  | cons q qs ih =>
    rcases List.mem_cons.mp hmem with rfl | hmem2
    · simp [lookupF, List.find?_cons]
    · have hn2 : (q.1 :: qs.map (fun r => r.1)).Nodup := by simpa using hnodup
      obtain ⟨hq, hqs⟩ := List.nodup_cons.mp hn2
      have hne : q.1 ≠ p.1 := by
        intro hh
        exact hq (hh ▸ List.mem_map.mpr ⟨p, hmem2, rfl⟩)
      have hb : (q.1 == p.1) = false := beq_eq_false_iff_ne.mpr hne
      simp only [lookupF, List.find?_cons, hb]
      exact ih hqs hmem2

/-- `pick_first_focused` returns the unique `Focused` entity whenever one
exists: the justification for the `focus_uniqueness` hypothesis that the
driving loop always resolves from the focused node. -/
theorem pick_first_focused_eq {w : World} (fuel : Nat) {f : Nat}
    (hnodup : (w.focusables.map (fun p => p.1)).Nodup)
    (hone : atMostOneFocused w) (hf : Foc w f) :
    pick_first_focused w fuel = .ok (some f) := by
  rw [pick_first_focused]
  cases hfs : (w.focusables.filter (fun p => p.2.state != .Blocked)).findSome?
      (fun p => if p.2.state = .Focused then some p.1 else none) with
  | none =>
    exfalso
    rw [Foc, stateOf] at hf
    obtain ⟨fv, hfv, hst⟩ := Option.map_eq_some'.mp hf
    rw [lookupF] at hfv
    obtain ⟨pr, hpr, hp2⟩ := Option.map_eq_some'.mp hfv
    have hmem := List.mem_of_find?_eq_some hpr
    rw [← hp2] at hst
    have hmemf : pr ∈ w.focusables.filter (fun p => p.2.state != .Blocked) := by
      apply List.mem_filter.mpr
      refine ⟨hmem, ?_⟩
      simp [hst]
    have := List.findSome?_eq_none_iff.mp hfs pr hmemf
    rw [if_pos hst] at this
    exact Option.noConfusion this
  | some x =>
    simp only [hfs]
    obtain ⟨p, hpmem, hpeq⟩ := List.exists_of_findSome?_eq_some hfs
    by_cases hst : p.2.state = .Focused
    · rw [if_pos hst] at hpeq
      have hx : p.1 = x := by simpa using hpeq
      have hpf : p ∈ w.focusables := List.mem_of_mem_filter hpmem
      have hlook : lookupF w.focusables p.1 = some p.2 := lookupF_mem_eq hnodup hpf
      have hfocp : Foc w p.1 := by
        rw [Foc, stateOf, hlook]
        simp [hst]
      have : p.1 = f := hone p.1 f hfocp hf
      rw [← hx, this]
    · rw [if_neg hst] at hpeq
      exact Option.noConfusion hpeq
